import Mathlib

/-!
Shallow embedding of `crates/mbe/src/syntax_bridge.rs`: conversions between
syntax trees and `tt` token trees, with the token-id bookkeeping (`TokenMap`,
`TokenIdAlloc`), the CST→TT converter (`convert_tokens`), the string→TT entry
point (`parse_to_token_tree`), the expression splitter
(`parse_exprs_with_sep`) and the TT→CST sink (`TtTreeSink`).

Machine integers (`u32` ids, byte offsets) are modelled as `Nat`; the
conversions in question allocate one id per token, far below `2^32`, so no
wrap-around is modelled.  External collaborators (the lexer, the event
parser, the `syntax` crate's comment classification) are modelled from the
specification where noted.
-/

namespace SyntaxBridge

/-- Model of `SyntaxKind` restricted to the classification the bridge
consults: identifier, underscore, trivia, lifetime, keywords, literal kinds,
delimiter kinds and other single punctuation kinds (carrying their
character).  `ERROR` stands for any unknown kind. -/
inductive SyntaxKind where
  | IDENT
  | UNDERSCORE
  | WHITESPACE
  | COMMENT
  | LIFETIME_IDENT
  | KW_TRUE
  | KW_FALSE
  | KW (s : String)
  | INT_NUMBER
  | STRING_LIT
  | L_PAREN
  | R_PAREN
  | L_CURLY
  | R_CURLY
  | L_BRACK
  | R_BRACK
  | PUNCT (c : Char)
  | ERROR
  deriving DecidableEq, Repr

namespace SyntaxKind

/-- `SyntaxKind::is_punct`: delimiters, underscore and the other
punctuation kinds (in the parser's kind enum `UNDERSCORE` is a punctuation
kind, which is why `convert_tokens` excludes it explicitly). -/
def is_punct : SyntaxKind → Bool
  | L_PAREN | R_PAREN | L_CURLY | R_CURLY | L_BRACK | R_BRACK => true
  | UNDERSCORE => true
  | PUNCT _ => true
  | _ => false

/-- `SyntaxKind::is_trivia`: whitespace and comments. -/
def is_trivia : SyntaxKind → Bool
  | WHITESPACE | COMMENT => true
  | _ => false

/-- `SyntaxKind::is_keyword` (true/false are keyword kinds as well). -/
def is_keyword : SyntaxKind → Bool
  | KW_TRUE | KW_FALSE | KW _ => true
  | _ => false

/-- `SyntaxKind::is_literal` for the literal kinds modelled. -/
def is_literal : SyntaxKind → Bool
  | INT_NUMBER | STRING_LIT => true
  | _ => false

end SyntaxKind

/-- `TextRange`: a half-open byte range `[start, stop)`. -/
structure TextRange where
  start : Nat
  stop : Nat
  deriving DecidableEq, Repr

/-- `TextRange - TextSize`: shift a range down by an offset
(`absolute_range - self.global_offset` in `TokenIdAlloc`). -/
def TextRange.sub (r : TextRange) (off : Nat) : TextRange :=
  { start := r.start - off, stop := r.stop - off }

/-- `tt::Spacing`. -/
inductive Spacing where
  | Alone
  | Joint
  deriving DecidableEq, Repr

/-- `tt::DelimiterKind`. -/
inductive DelimiterKind where
  | Parenthesis
  | Brace
  | Bracket
  deriving DecidableEq, Repr

/-- `tt::Delimiter {id, kind}` (the id modelled as `Nat`). -/
structure Delimiter where
  id : Nat
  kind : DelimiterKind
  deriving DecidableEq, Repr

/-- `tt::TokenTree`: the three leaves and subtrees, flattened into one
inductive (a subtree carries its optional delimiter and children). -/
inductive TokenTree where
  | ident (text : String) (id : Nat)
  | literal (text : String) (id : Nat)
  | punct (char : Char) (spacing : Spacing) (id : Nat)
  | subtree (delimiter : Option Delimiter) (token_trees : List TokenTree)

/-- `tt::Subtree`: optional delimiter plus children. -/
structure Subtree where
  delimiter : Option Delimiter
  token_trees : List TokenTree

/-- View a `Subtree` as a `TokenTree`. -/
def Subtree.toTT (s : Subtree) : TokenTree :=
  .subtree s.delimiter s.token_trees

/-- Is a token tree a subtree node? -/
def TokenTree.isSubtree : TokenTree → Bool
  | .subtree _ _ => true
  | _ => false

/-- Modelled from the spec: the entries of the `TokenMap` (the repository's
`token_map.rs` is not part of the sources shown).  Per §3/§4.1 an entry is
either an ordinary token range or a delimiter-pair slot holding an open and
a close range (`open_delim` initialises the slot with `open = close`). -/
inductive TokenTextRange where
  | token (r : TextRange)
  | delim (ropen rclose : TextRange)
  deriving DecidableEq, Repr

/-- Modelled from the spec: `TokenMap` holds ordinary/delimiter entries and
the synthetic-origin relation, both as insertion-ordered lists. -/
structure TokenMap where
  entries : List (Nat × TokenTextRange)
  synthetic_entries : List (Nat × Nat)
  deriving DecidableEq, Repr

/-- The empty `TokenMap`. -/
def TokenMap.empty : TokenMap :=
  { entries := [], synthetic_entries := [] }

/-- Modelled from the spec: `TokenMap::insert` appends an ordinary entry. -/
def TokenMap.insert (m : TokenMap) (id : Nat) (r : TextRange) : TokenMap :=
  { m with entries := m.entries ++ [(id, .token r)] }

/-- Modelled from the spec: `TokenMap::insert_synthetic` records the
synthetic origin of an id. -/
def TokenMap.insert_synthetic (m : TokenMap) (id : Nat) (sid : Nat) : TokenMap :=
  { m with synthetic_entries := m.synthetic_entries ++ [(id, sid)] }

/-- Modelled from the spec: `TokenMap::insert_delim` appends a delimiter
slot and returns its index for later finalisation. -/
def TokenMap.insert_delim (m : TokenMap) (id : Nat) (ropen rclose : TextRange) :
    Nat × TokenMap :=
  (m.entries.length, { m with entries := m.entries ++ [(id, .delim ropen rclose)] })

/-- Modelled from the spec: `TokenMap::update_close_delim` replaces the
close range of the slot at `idx`. -/
def TokenMap.update_close_delim (m : TokenMap) (idx : Nat) (rclose : TextRange) : TokenMap :=
  { m with
    entries := m.entries.modify (fun e =>
      match e with
      | (id, .delim ropen _) => (id, .delim ropen rclose)
      | other => other) idx }

/-- Modelled from the spec: `TokenMap::remove_delim` removes the slot at
`idx` (§4.1: a delimiter that never closed has its slot removed). -/
def TokenMap.remove_delim (m : TokenMap) (idx : Nat) : TokenMap :=
  { m with entries := m.entries.eraseIdx idx }

/-- `TokenIdAlloc`: the id allocator owning the map under construction. -/
structure TokenIdAlloc where
  map : TokenMap
  global_offset : Nat
  next_id : Nat
  deriving DecidableEq, Repr

/-- `TokenIdAlloc::alloc`: mint `next_id`, store the range shifted by
`global_offset`, record the synthetic origin when present. -/
def TokenIdAlloc.alloc (a : TokenIdAlloc) (absolute_range : TextRange)
    (synthetic_id : Option Nat) : Nat × TokenIdAlloc :=
  let relative_range := absolute_range.sub a.global_offset
  let token_id := a.next_id
  let m := a.map.insert token_id relative_range
  let m := match synthetic_id with
    | some sid => m.insert_synthetic token_id sid
    | none => m
  (token_id, { a with map := m, next_id := a.next_id + 1 })

/-- `TokenIdAlloc::open_delim`: mint an id and reserve a delimiter slot with
`open = close = abs_range - global_offset`; return `(id, slot index)`. -/
def TokenIdAlloc.open_delim (a : TokenIdAlloc) (open_abs_range : TextRange) :
    Nat × Nat × TokenIdAlloc :=
  let token_id := a.next_id
  let (idx, m) := a.map.insert_delim token_id (open_abs_range.sub a.global_offset)
      (open_abs_range.sub a.global_offset)
  (token_id, idx, { a with map := m, next_id := a.next_id + 1 })

/-- `TokenIdAlloc::close_delim`: with a close range, update the slot; with
`none`, remove the slot (the delimiter never closed). -/
def TokenIdAlloc.close_delim (a : TokenIdAlloc) (idx : Nat)
    (close_abs_range : Option TextRange) : TokenIdAlloc :=
  match close_abs_range with
  | none => { a with map := a.map.remove_delim idx }
  | some close => { a with map := a.map.update_close_delim idx (close.sub a.global_offset) }

/-! ## Doc-comment desugaring -/

/-- The comment placements of `ast::CommentPlacement`. -/
inductive CommentPlacement where
  | Inner
  | Outer
  deriving DecidableEq, Repr

/-- The quote character. -/
def quoteChar : Char := Char.ofNat 34

/-- The apostrophe character. -/
def aposChar : Char := Char.ofNat 39

/-- `tt::TokenId::unspecified()`, the `u32` sentinel `!0`. -/
def unspecifiedId : Nat := 4294967295

/-- Prefix test on strings by character list (the comment prefixes in
question are ASCII, so character and byte positions agree). -/
def strStartsWith (s pre : String) : Bool :=
  pre.data.isPrefixOf s.data

/-- Drop the first `n` characters of a string. -/
def strDrop (s : String) (n : Nat) : String :=
  ⟨s.data.drop n⟩

/-- Drop the last `n` characters of a string. -/
def strDropRight (s : String) (n : Nat) : String :=
  ⟨s.data.take (s.data.length - n)⟩

/-- Modelled from the spec: the comment classification of the external
`syntax` crate (`ast::Comment::kind().doc`); a comment is a doc comment
iff its text starts with `///`, `//!`, `/**` or `/*!` (§4.3), with inner
placement for the `!` forms. -/
def commentDoc (text : String) : Option CommentPlacement :=
  if strStartsWith text "///" then some .Outer
  else if strStartsWith text "//!" then some .Inner
  else if strStartsWith text "/*!" then some .Inner
  else if strStartsWith text "/**" then some .Outer
  else none

/-- Modelled from the spec: a comment has block shape iff it starts with
`/*` (then its text ends with `*/`). -/
def commentIsBlock (text : String) : Bool :=
  strStartsWith text "/*"

/-- Modelled from the spec: `char::escape_debug` — escape the quote,
apostrophe, backslash and the common control characters, leave the rest. -/
def escape_debug_char (c : Char) : String :=
  if c = quoteChar then "\\" ++ String.singleton quoteChar
  else if c = aposChar then "\\" ++ String.singleton aposChar
  else if c = '\\' then "\\\\"
  else if c = '\n' then "\\n"
  else if c = '\t' then "\\t"
  else if c = '\r' then "\\r"
  else if c = Char.ofNat 0 then "\\0"
  else String.singleton c

/-- Modelled from the spec: `str::escape_debug`, character by character. -/
def escape_debug (s : String) : String :=
  String.join (s.data.map escape_debug_char)

/-- `doc_comment_text`: strip the (3-byte) doc prefix, strip the trailing
`*/` of block comments, and wrap in quotes with escape-debug escaping. -/
def doc_comment_text (text : String) : String :=
  let t := strDrop text 3
  let t := if commentIsBlock text then strDropRight t 2 else t
  String.singleton quoteChar ++ escape_debug t ++ String.singleton quoteChar

/-- `convert_doc_comment` over the modelled comment classification:
fabricate `#`, `!` for inner placement, and a bracket subtree
`[doc = "escaped text"]`, all with unspecified ids. -/
def convert_doc_comment_text (text : String) : Option (List TokenTree) :=
  match commentDoc text with
  | none => none
  | some doc =>
    let meta_tkns : List TokenTree :=
      [.ident "doc" unspecifiedId, .punct '=' .Alone unspecifiedId,
       .literal (doc_comment_text text) unspecifiedId]
    let sub : TokenTree :=
      .subtree (some { id := unspecifiedId, kind := .Bracket }) meta_tkns
    match doc with
    | .Inner => some [.punct '#' .Alone unspecifiedId, .punct '!' .Alone unspecifiedId, sub]
    | .Outer => some [.punct '#' .Alone unspecifiedId, sub]

/-- The id patching of `convert_tokens` on a converted doc comment: give
the literal at child index 2 of the fabricated subtree the comment's id. -/
def patchDocLit (id : Nat) : TokenTree → TokenTree
  | .subtree d ch =>
    .subtree d (ch.modify (fun t =>
      match t with
      | .literal s _ => .literal s id
      | other => other) 2)
  | other => other

/-! ## The CST→TT converter -/

/-- A source token as delivered by a token source adapter's `bump`/`peek`:
kind, text, absolute range and optional synthetic origin.  The raw
convertor produces exactly this stream from the lexed string; for the CST
convertor this is the stream after punct splitting and synthetic-token
interleaving. -/
structure SrcTok where
  kind : SyntaxKind
  text : String
  range : TextRange
  synthetic : Option Nat
  deriving DecidableEq, Repr

/-- The spacing computation of `convert_tokens`: `Joint` iff the peeked
token exists, is not trivia, is punctuation and is not `[`, `{`, `(` or
underscore; otherwise `Alone`. -/
def spacingFor (peeked : Option SyntaxKind) : Spacing :=
  match peeked with
  | some k =>
    if !k.is_trivia && k.is_punct && k ≠ .L_BRACK && k ≠ .L_CURLY && k ≠ .L_PAREN
        && k ≠ .UNDERSCORE then
      .Joint
    else
      .Alone
  | none => .Alone

/-- The closing kind expected for a delimiter. -/
def closerKind : DelimiterKind → SyntaxKind
  | .Parenthesis => .R_PAREN
  | .Brace => .R_CURLY
  | .Bracket => .R_BRACK

/-- The opener character of a delimiter kind. -/
def openerChar : DelimiterKind → Char
  | .Parenthesis => '('
  | .Brace => '{'
  | .Bracket => '['

/-- The delimiter kind opened by a token kind, if any. -/
def delimKindOf : SyntaxKind → Option DelimiterKind
  | .L_PAREN => some .Parenthesis
  | .L_CURLY => some .Brace
  | .L_BRACK => some .Bracket
  | _ => none

/-- One entry of the converter's stack (`StackEntry` in `convert_tokens`):
the subtree under construction, its delimiter slot index and the opener's
absolute range. -/
structure StackEntry where
  delimiter : Option Delimiter
  children : List TokenTree
  idx : Nat
  open_range : TextRange

/-- The end-of-stream merge loop of `convert_tokens`: pop each still-open
subtree, drop its delimiter slot (`close_delim` with `None`), demote its
opener to a fresh `Alone` punct, and splice opener + children into the
parent. -/
def convert_flush : StackEntry → List StackEntry → TokenIdAlloc → StackEntry × TokenIdAlloc
  | top, [], a => (top, a)
  | top, p :: ps, a =>
    let r := (a.close_delim top.idx none).alloc top.open_range none
    let c : Char := match top.delimiter with
      | some d => openerChar d.kind
      | none => '('
    let p' := { p with children := p.children ++ [TokenTree.punct c .Alone r.1] ++ top.children }
    convert_flush p' ps r.2

/-- One iteration of the `convert_tokens` loop on a pulled token, given
the kind of the peeked next token: returns the updated stack (top and
rest) and allocator. -/
def convert_step (tok : SrcTok) (peeked : Option SyntaxKind) (top : StackEntry)
    (rest : List StackEntry) (a : TokenIdAlloc) :
    StackEntry × List StackEntry × TokenIdAlloc :=
  if tok.kind = .COMMENT then
    match (if tok.synthetic.isNone then convert_doc_comment_text tok.text else none) with
    | none => (top, rest, a)
    | some tokens =>
      let r := a.alloc tok.range tok.synthetic
      ({ top with children := top.children ++ tokens.map (patchDocLit r.1) }, rest, r.2)
  else if tok.kind.is_punct && tok.kind ≠ .UNDERSCORE then
    let isClose : Bool := match top.delimiter with
      | some delim => tok.kind == closerKind delim.kind
      | none => false
    if isClose then
      match rest with
      | p :: ps =>
        ({ p with
            children := p.children ++ [TokenTree.subtree top.delimiter top.children] },
         ps, a.close_delim top.idx (some tok.range))
      | [] => (top, rest, a)
    else
      match delimKindOf tok.kind with
      | some dk =>
        let r := a.open_delim tok.range
        ({ delimiter := some { id := r.1, kind := dk }, children := [], idx := r.2.1,
            open_range := tok.range }, top :: rest, r.2.2)
      | none =>
        let r := a.alloc tok.range tok.synthetic
        ({ top with
            children := top.children ++ [.punct tok.text.front (spacingFor peeked) r.1] },
         rest, r.2)
  else if tok.kind = .KW_TRUE || tok.kind = .KW_FALSE || tok.kind = .IDENT
      || tok.kind = .UNDERSCORE || tok.kind.is_keyword then
    let r := a.alloc tok.range tok.synthetic
    ({ top with children := top.children ++ [.ident tok.text r.1] }, rest, r.2)
  else if tok.kind.is_literal then
    let r := a.alloc tok.range tok.synthetic
    ({ top with children := top.children ++ [.literal tok.text r.1] }, rest, r.2)
  else if tok.kind = .LIFETIME_IDENT then
    let r1 := a.alloc { start := tok.range.start, stop := tok.range.start + 1 } tok.synthetic
    let r2 := r1.2.alloc { start := tok.range.start + 1, stop := tok.range.stop } tok.synthetic
    ({ top with children := top.children ++
        [.punct aposChar .Joint r1.1, .ident (tok.text.drop 1) r2.1] }, rest, r2.2)
  else
    (top, rest, a)

/-- The main loop of `convert_tokens` over the token stream; the stack is
`(top, rest)` with the root subtree at the bottom, and each pulled token
is handled by `convert_step` with `peek` supplying the next kind. -/
def convert_go : List SrcTok → StackEntry → List StackEntry → TokenIdAlloc →
    StackEntry × TokenIdAlloc
  | [], top, rest, a => convert_flush top rest a
  | tok :: toks, top, rest, a =>
    let s := convert_step tok ((toks.head?).map (·.kind)) top rest a
    convert_go toks s.1 s.2.1 s.2.2

/-- `convert_tokens`: run the stack machine from the root entry, flush
still-open subtrees, and flatten a root whose only child is a subtree. -/
def convert_tokens (stream : List SrcTok) (a : TokenIdAlloc) : Subtree × TokenIdAlloc :=
  let root : StackEntry :=
    { delimiter := none, children := [], idx := 0, open_range := { start := 0, stop := 0 } }
  let s := convert_go stream root [] a
  match s.1.children with
  | [TokenTree.subtree d ch] => (⟨d, ch⟩, s.2)
  | other => (⟨s.1.delimiter, other⟩, s.2)

/-! ## The raw (string → TT) entry point -/

/-- Modelled from the spec: the external lexer's output (§6) — a list of
`(kind, text)` tokens and the reported errors; byte ranges are cumulative
offsets of the token texts. -/
structure LexedStr where
  tokens : List (SyntaxKind × String)
  errors : List String

/-- The raw convertor's token stream: token `i` spans the bytes of the
concatenated texts before it; no synthetic origins. -/
def lexedStream : List (SyntaxKind × String) → Nat → List SrcTok
  | [], _ => []
  | (k, t) :: rest, off =>
    { kind := k, text := t, range := { start := off, stop := off + t.utf8ByteSize },
      synthetic := none } :: lexedStream rest (off + t.utf8ByteSize)

/-- `parse_to_token_tree`: absent iff the lexer reported an error;
otherwise the shared converter's subtree and the map built during the
conversion, starting from a fresh allocator (`global_offset = 0`,
`next_id = 0`). -/
def parse_to_token_tree (lexed : LexedStr) : Option (Subtree × TokenMap) :=
  if lexed.errors ≠ [] then none
  else
    let a : TokenIdAlloc := { map := TokenMap.empty, global_offset := 0, next_id := 0 }
    let (subtree, a) := convert_tokens (lexedStream lexed.tokens 0) a
    some (subtree, a.map)

/-! ## Node-level entry points -/

/-- Modelled from the spec: a syntax node for conversion purposes — its
absolute starting byte offset and the token stream the CST token source
adapter delivers for it (§4.2: the walker, punct splitting and
replace/append interleaving are external collaborators; synthetic tokens
appear in the stream with their origin ids). -/
structure SyntaxNode where
  startOff : Nat
  stream : List SrcTok

/-- `syntax_node_to_token_tree_with_modifications`: fix the allocator's
global offset to the node's starting offset and run the shared
converter. -/
def syntax_node_to_token_tree_with_modifications (node : SyntaxNode)
    (existing_token_map : TokenMap) (next_id : Nat) : Subtree × TokenMap × Nat :=
  let global_offset := node.startOff
  let a : TokenIdAlloc :=
    { map := existing_token_map, global_offset := global_offset, next_id := next_id }
  let s := convert_tokens node.stream a
  (s.1, s.2.map, s.2.next_id)

/-- `syntax_node_to_token_tree`: the modification-free wrapper (empty map,
`next_id = 0`). -/
def syntax_node_to_token_tree (node : SyntaxNode) : Subtree × TokenMap :=
  let (s, m, _) := syntax_node_to_token_tree_with_modifications node TokenMap.empty 0
  (s, m)

/-! ## The expression splitter -/

/-- Modelled from the spec: `TtIter::expect_fragment` backed by the
external expression-prefix parser (§4.4, §6).  `parseFragment` returns the
parsed fragment (absent on failure) and the remaining suffix of the token
trees; the laws record that a successful parse consumes at least one token
tree, that a failed parse consumes nothing, and that the remainder is a
suffix of the input. -/
structure ExprOracle where
  parseFragment : List TokenTree → Option TokenTree × List TokenTree
  law_some : ∀ ts t rest, parseFragment ts = (some t, rest) → rest.length < ts.length
  law_none : ∀ ts rest, parseFragment ts = (none, rest) → rest = ts
  law_suffix : ∀ ts, (parseFragment ts).2.IsSuffix ts

/-- Modelled from the spec: `TtIter::expect_char` — succeed iff the next
token tree is a punct leaf with that character, consuming it. -/
def expect_char (sep : Char) : List TokenTree → Option (List TokenTree)
  | TokenTree.punct c _ _ :: rest => if c = sep then some rest else none
  | _ => none

/-- The wrapping of a parsed fragment in `parse_exprs_with_sep`: a leaf
becomes a singleton subtree with no delimiter, a subtree is kept. -/
def fragToSubtree : TokenTree → Subtree
  | TokenTree.subtree d ch => ⟨d, ch⟩
  | leaf => ⟨none, [leaf]⟩

/-- The `while` loop of `parse_exprs_with_sep`: parse an expression, then
require a separator on a fork; the first parse failure breaks, and a
non-empty remainder becomes one final subtree with no delimiter. -/
def parse_exprs_loop (P : ExprOracle) (sep : Char) (ts : List TokenTree) : List Subtree :=
  match hts : ts with
  | [] => []
  | _ :: _ =>
    match hp : P.parseFragment ts with
    | (none, _) => [⟨none, ts⟩]
    | (some t, rest) =>
      match hc : expect_char sep rest with
      | some rest' => fragToSubtree t :: parse_exprs_loop P sep rest'
      | none => fragToSubtree t :: (if rest.isEmpty then [] else [⟨none, rest⟩])
termination_by ts.length
decreasing_by
  have h1 : rest.length < ts.length := P.law_some ts t rest hp
  rw [hts] at h1
  have h2 : rest'.length < rest.length := by
    cases rest with
    | nil => simp [expect_char] at hc
    | cons r rs =>
      cases r with
      | punct c s i =>
        simp only [expect_char] at hc
        split at hc
        · cases hc
          simp
        · cases hc
      | ident a b => simp [expect_char] at hc
      | literal a b => simp [expect_char] at hc
      | subtree a b => simp [expect_char] at hc
  omega

/-- `parse_exprs_with_sep`: empty input gives the empty list, otherwise
run the splitting loop. -/
def parse_exprs_with_sep (P : ExprOracle) (tt : Subtree) (sep : Char) : List Subtree :=
  if tt.token_trees.isEmpty then []
  else parse_exprs_loop P sep tt.token_trees

/-! ## Token-tree text rendering -/

/-- `delim_to_str`: the opening or closing character of a delimiter. -/
def delim_to_str (d : DelimiterKind) (closing : Bool) : String :=
  match d, closing with
  | .Parenthesis, false => "("
  | .Parenthesis, true => ")"
  | .Brace, false => String.singleton '{'
  | .Brace, true => String.singleton '}'
  | .Bracket, false => "["
  | .Bracket, true => "]"

mutual

/-- The source text a token tree renders to: leaf texts, with delimiters
around subtree children. -/
def ttText : TokenTree → String
  | .ident t _ => t
  | .literal t _ => t
  | .punct c _ _ => String.singleton c
  | .subtree d ch =>
    (match d with
     | some dl => delim_to_str dl.kind false
     | none => "") ++
    ttListText ch ++
    (match d with
     | some dl => delim_to_str dl.kind true
     | none => "")

/-- Concatenated text of a list of token trees. -/
def ttListText : List TokenTree → String
  | [] => ""
  | t :: ts => ttText t ++ ttListText ts

end

/-! ## The TT→CST sink -/

/-- The linearised `TokenBuffer` view: leaves, subtree openers and subtree
closers (the closer carries the subtree's delimiter, as `Cursor::end`
exposes it). -/
inductive BufItem where
  | leaf (l : TokenTree)
  | openSub (d : Option Delimiter)
  | closeSub (d : Option Delimiter)

mutual

/-- Flatten one token tree into buffer items. -/
def flattenTT : TokenTree → List BufItem
  | .ident t i => [.leaf (.ident t i)]
  | .literal t i => [.leaf (.literal t i)]
  | .punct c s i => [.leaf (.punct c s i)]
  | .subtree d ch => BufItem.openSub d :: flattenList ch ++ [BufItem.closeSub d]

/-- Flatten a list of token trees into buffer items. -/
def flattenList : List TokenTree → List BufItem
  | [] => []
  | t :: ts => flattenTT t ++ flattenList ts

end

/-- `TokenBuffer::from_tokens` vs `from_subtree` as used by
`token_tree_to_syntax_node`: a delimiter-free root contributes its
children, a delimited tree is one subtree entry. -/
def bufferOf (tt : Subtree) : List BufItem :=
  match tt.delimiter with
  | none => flattenList tt.token_trees
  | some _ => flattenTT tt.toTT

/-- The text a buffer item contributes (closers/openers of
delimiter-free subtrees contribute nothing). -/
def itemText : BufItem → String
  | .leaf l => ttText l
  | .openSub (some d) => delim_to_str d.kind false
  | .openSub none => ""
  | .closeSub (some d) => delim_to_str d.kind true
  | .closeSub none => ""

/-- The leaf id the sink records (`ident.id`, `punct.id`, `lit.id`). -/
def leafId : TokenTree → Nat
  | .ident _ i => i
  | .literal _ i => i
  | .punct _ _ i => i
  | .subtree _ _ => 0

/-- What `Cursor::token_tree` sees at a position: a leaf, a subtree (with
its delimiter), or nothing (subtree end / eof). -/
inductive TTRef where
  | leafRef (l : TokenTree)
  | subRef (d : Option Delimiter)

/-- `Cursor::token_tree` on the flat buffer. -/
def tokenTreeAt (items : List BufItem) (i : Nat) : Option TTRef :=
  match items.get? i with
  | some (.leaf l) => some (.leafRef l)
  | some (.openSub d) => some (.subRef d)
  | _ => none

/-- Position just past the matching `closeSub` of the `openSub` at `i - 1`
levels: scan with a depth counter (fuel-bounded). -/
def skipSubEnd (items : List BufItem) : Nat → Nat → Nat → Nat
  | i, _, 0 => i
  | i, depth, fuel + 1 =>
    match items.get? i with
    | some (.openSub _) => skipSubEnd items (i + 1) (depth + 1) fuel
    | some (.closeSub _) =>
      if depth = 0 then i + 1 else skipSubEnd items (i + 1) (depth - 1) fuel
    | some (.leaf _) => skipSubEnd items (i + 1) depth fuel
    | none => i
  termination_by _ _ fuel => fuel

/-- `Cursor::bump` on the flat buffer: past a leaf or a subtree end, move
one entry; at a subtree start, skip the whole subtree; at eof, stay. -/
def bumpAt (items : List BufItem) (i : Nat) : Nat :=
  match items.get? i with
  | some (.leaf _) => i + 1
  | some (.closeSub _) => i + 1
  | some (.openSub _) => skipSubEnd items (i + 1) 0 items.length
  | none => i

/-- The sink's state (`TtTreeSink`): the buffer with a cursor, the open
delimiter positions, the running text position, the builder's token
output, the produced map and the recorded parse errors. -/
structure SinkState where
  items : List BufItem
  cursor : Nat
  open_delims : List (Nat × Nat)
  text_pos : Nat
  out : List (SyntaxKind × String)
  token_map : TokenMap
  errors : List (String × Nat)

/-- The inner text-pulling loop of `TtTreeSink::token`: skip
delimiter-free subtree boundaries, then consume one entry, recording leaf
ranges and delimiter-pair ranges into the new map. -/
def sinkPull (items : List BufItem) : Nat → SinkState → SinkState × String
  | 0, st => (st, "")
  | fuel + 1, st =>
    match items.get? st.cursor with
    | none => (st, "")
    | some (.leaf l) =>
      let text := ttText l
      let st := { st with
        token_map := st.token_map.insert (leafId l)
          { start := st.text_pos, stop := st.text_pos + text.utf8ByteSize },
        cursor := st.cursor + 1 }
      (st, text)
    | some (.openSub d) =>
      match d with
      | some dl =>
        let st := { st with
          open_delims := (dl.id, st.text_pos) :: st.open_delims,
          cursor := st.cursor + 1 }
        (st, delim_to_str dl.kind false)
      | none => sinkPull items fuel { st with cursor := st.cursor + 1 }
    | some (.closeSub d) =>
      match d with
      | some dl =>
        let st' := { st with cursor := st.cursor + 1 }
        let st' :=
          match (st.open_delims.find? (fun p => p.1 == dl.id)) with
          | some p =>
            { st' with token_map :=
                (st'.token_map.insert_delim dl.id { start := p.2, stop := p.2 + 1 }
                  { start := st.text_pos, stop := st.text_pos + 1 }).2 }
          | none => st'
        (st', delim_to_str dl.kind true)
      | none => sinkPull items fuel { st with cursor := st.cursor + 1 }

/-- The `for _ in 0..n_tokens` loop of `TtTreeSink::token`: consume up to
`n` tokens' worth of text into `buf`, remembering the cursor snapshot
(`last`) of the final iteration. -/
def sinkTokenLoop : Nat → SinkState → String → Nat → SinkState × String × Nat
  | 0, st, buf, last => (st, buf, last)
  | n + 1, st, buf, last =>
    if st.cursor ≥ st.items.length then (st, buf, last)
    else
      let p := sinkPull st.items (st.items.length + 1) st
      sinkTokenLoop n { p.1 with text_pos := p.1.text_pos + p.2.utf8ByteSize }
        (buf ++ p.2) st.cursor

/-- The whitespace-insertion test of `TtTreeSink::token`: the tree at
`last` is an `Alone` punct other than `;` and the tree at `bump(last)` is
also a punct leaf. -/
def adjacentPunctSpace (items : List BufItem) (last : Nat) : Bool :=
  match tokenTreeAt items last, tokenTreeAt items (bumpAt items last) with
  | some (.leafRef (TokenTree.punct c sp _)), some (.leafRef (TokenTree.punct _ _ _)) =>
    sp == Spacing.Alone && c != ';'
  | _, _ => false

/-- `TtTreeSink::token`: force `n = 2` for lifetime tokens, pull the
token texts, commit one builder token, and insert a single space when the
last consumed tree is an `Alone` punct other than `;` and the next tree
is also a punct leaf. -/
def sinkToken (st : SinkState) (kind : SyntaxKind) (n_tokens : Nat) : SinkState :=
  let n := if kind = .LIFETIME_IDENT then 2 else n_tokens
  let r := sinkTokenLoop n st "" st.cursor
  let st' := { r.1 with out := r.1.out ++ [(kind, r.2.1)] }
  if adjacentPunctSpace st'.items r.2.2 then
    { st' with out := st'.out ++ [(.WHITESPACE, " ")], text_pos := st'.text_pos + 1 }
  else
    st'

/-- The event-parser steps (§6): `Token`, `Enter`, `Exit`, `Error`. -/
inductive Step where
  | token (kind : SyntaxKind) (n : Nat)
  | enter (kind : SyntaxKind)
  | exit
  | error (msg : String)

/-- Apply one parser event to the sink (`Enter`/`Exit` only shape the
tree, which the model does not track; `Error` records a diagnostic at the
current position). -/
def sinkStep (st : SinkState) : Step → SinkState
  | .token kind n => sinkToken st kind n
  | .enter _ => st
  | .exit => st
  | .error msg => { st with errors := st.errors ++ [(msg, st.text_pos)] }

/-- `token_tree_to_syntax_node`, with the external event parser's output
supplied as a list of events (Modelled from the spec: the parser itself
is an external collaborator, §6): linearise the token tree, replay the
events through the sink, and return the final sink state. -/
def token_tree_to_syntax_node (tt : Subtree) (events : List Step) : SinkState :=
  let items := bufferOf tt
  let st0 : SinkState :=
    { items := items, cursor := 0, open_delims := [], text_pos := 0, out := [],
      token_map := TokenMap.empty, errors := [] }
  events.foldl sinkStep st0

/-- The reconstructed source text of the sink's output. -/
def sinkText (st : SinkState) : String :=
  String.join (st.out.map (fun p => p.2))

/-! ## Text-preservation vocabulary (round trip) -/

/-- The text the converter preserves from one source token: trivia
contributes nothing, any other token its text. -/
def tokText (t : SrcTok) : String :=
  if t.kind.is_trivia then "" else t.text

/-- Concatenated preserved text of a stream. -/
def streamText (stream : List SrcTok) : String :=
  String.join (stream.map tokText)

/-- The source text of a lexed string (it concatenates to the lexed
source), with trivia removed. -/
def stripTrivia (lexed : LexedStr) : String :=
  String.join (lexed.tokens.map (fun p => if p.1.is_trivia then "" else p.2))

/-- The full source text of a lexed string. -/
def sourceText (lexed : LexedStr) : String :=
  String.join (lexed.tokens.map (fun p => p.2))

/-- Well-formedness of one source token for text preservation: not a
comment, not an unknown kind, punct text is its single character,
delimiter texts are the delimiter characters, and lifetime text starts
with the apostrophe. -/
def TokTextOk (t : SrcTok) : Prop :=
  t.kind ≠ .COMMENT ∧ t.kind ≠ .ERROR ∧
  (t.kind.is_punct = true → t.text = String.singleton t.text.front) ∧
  (t.kind = .L_PAREN → t.text = "(") ∧
  (t.kind = .R_PAREN → t.text = ")") ∧
  (t.kind = .L_CURLY → t.text = String.singleton '{') ∧
  (t.kind = .R_CURLY → t.text = String.singleton '}') ∧
  (t.kind = .L_BRACK → t.text = "[") ∧
  (t.kind = .R_BRACK → t.text = "]") ∧
  (t.kind = .LIFETIME_IDENT → t.text = String.singleton aposChar ++ t.text.drop 1)

/-- Well-formedness of every token of a stream. -/
def StreamTextOk (stream : List SrcTok) : Prop :=
  ∀ t ∈ stream, TokTextOk t

/-- The text one source token contributes to the converted tree, the
comment branch of `convert_step` included: a comment contributes the
text of its doc desugaring (nothing for a non-doc or synthetic comment),
other trivia contributes nothing, and any other token its text. -/
def tokEmitted (t : SrcTok) : String :=
  if t.kind = SyntaxKind.COMMENT then
    match (if t.synthetic.isNone then convert_doc_comment_text t.text else none) with
    | none => ""
    | some tokens => ttListText tokens
  else tokText t

/-- Concatenated emitted text of a stream. -/
def streamEmitted (stream : List SrcTok) : String :=
  String.join (stream.map tokEmitted)

/-- Well-formedness of one source token with comments allowed: the
`TokTextOk` conditions minus comment freedom. -/
def TokTextOkC (t : SrcTok) : Prop :=
  t.kind ≠ .ERROR ∧
  (t.kind.is_punct = true → t.text = String.singleton t.text.front) ∧
  (t.kind = .L_PAREN → t.text = "(") ∧
  (t.kind = .R_PAREN → t.text = ")") ∧
  (t.kind = .L_CURLY → t.text = String.singleton '{') ∧
  (t.kind = .R_CURLY → t.text = String.singleton '}') ∧
  (t.kind = .L_BRACK → t.text = "[") ∧
  (t.kind = .R_BRACK → t.text = "]") ∧
  (t.kind = .LIFETIME_IDENT → t.text = String.singleton aposChar ++ t.text.drop 1)

/-- Well-formedness (comments allowed) of every token of a stream. -/
def StreamTextOkC (stream : List SrcTok) : Prop :=
  ∀ t ∈ stream, TokTextOkC t

/-- The source text of a lexed string with whitespace removed, non-doc
comments removed, and each doc comment replaced by the text of its
fabricated attribute sequence. -/
def stripTriviaDesugar (lexed : LexedStr) : String :=
  String.join (lexed.tokens.map (fun p =>
    if p.1 = SyntaxKind.COMMENT then
      match convert_doc_comment_text p.2 with
      | none => ""
      | some tokens => ttListText tokens
    else if p.1.is_trivia then "" else p.2))

/-- The text rendered by a converter stack, bottom-up: each still-open
subtree contributes its opener character followed by its children. -/
def stackText : StackEntry → List StackEntry → String
  | top, [] => ttListText top.children
  | top, p :: ps =>
    stackText p ps ++
    String.singleton (match top.delimiter with
      | some d => openerChar d.kind
      | none => '(') ++
    ttListText top.children

/-- The bottom entry of the converter stack. -/
def lastEntry : StackEntry → List StackEntry → StackEntry
  | top, [] => top
  | _, p :: ps => lastEntry p ps

/-- Concatenated text of a buffer. -/
def itemsText (items : List BufItem) : String :=
  String.join (items.map itemText)

/-- The strings the sink may produce for the first `n` buffer items: the
items' texts in order, with single spaces optionally inserted where the
last consumed item is an `Alone` punct other than `;` and the following
item is a punct leaf (`spaced` records whether a space was just
inserted, so at most one space appears at each such boundary). -/
inductive SinkSpaced (items : List BufItem) : Nat → Bool → String → Prop where
  | zero : SinkSpaced items 0 false ""
  | item (n : Nat) (b : Bool) (s : String) (l : BufItem) :
      items.get? n = some l → SinkSpaced items n b s →
      SinkSpaced items (n + 1) false (s ++ itemText l)
  | space (n : Nat) (s : String) (c : Char) (i : Nat) (l2 : TokenTree) :
      items.get? (n - 1) = some (.leaf (.punct c .Alone i)) →
      1 ≤ n → c ≠ ';' →
      items.get? n = some (.leaf l2) →
      (∃ c2 sp2 i2, l2 = TokenTree.punct c2 sp2 i2) →
      SinkSpaced items n false s →
      SinkSpaced items n true (s ++ " ")

/-- A well-formed parser event: a `Token` step covers at least one token
(the parser never emits zero-width tokens). -/
def stepTokOk : Step → Prop
  | .token _ n => 1 ≤ n
  | _ => True

/-- All events of a replayed stream are well-formed. -/
def StepsOk (events : List Step) : Prop :=
  ∀ e ∈ events, stepTokOk e

/-- The sink invariant: the builder text produced so far stands in the
space-insertion relation to the buffer prefix before the cursor. -/
def SinkInv (st : SinkState) : Prop :=
  ∃ b, SinkSpaced st.items st.cursor b (sinkText st)

/-! ## Concrete lexer fixtures (Modelled from the spec: outputs of the
external lexer, §6, on the spec's example sources) -/

/-- Modelled from the spec: the lexer's output on `a :: b` (the raw lexer
yields single-character punctuation tokens). -/
def lexedColons : LexedStr :=
  ⟨[(.IDENT, "a"), (.WHITESPACE, " "), (.PUNCT ':', ":"), (.PUNCT ':', ":"),
    (.WHITESPACE, " "), (.IDENT, "b")], []⟩

/-- Modelled from the spec: the lexer's output on `a + b`. -/
def lexedPlus : LexedStr :=
  ⟨[(.IDENT, "a"), (.WHITESPACE, " "), (.PUNCT '+', "+"), (.WHITESPACE, " "),
    (.IDENT, "b")], []⟩

/-- Modelled from the spec: the lexer's output on `{ ( ]`. -/
def lexedBraceParenBracket : LexedStr :=
  ⟨[(.L_CURLY, String.singleton '{'), (.WHITESPACE, " "), (.L_PAREN, "("),
    (.WHITESPACE, " "), (.R_BRACK, "]")], []⟩

/-- Modelled from the spec: the lexer's output on a lone `(`. -/
def lexedLoneParen : LexedStr :=
  ⟨[(.L_PAREN, "(")], []⟩

/-- Modelled from the spec: the lexer's output on a doc comment followed
by an identifier. -/
def lexedDocA : LexedStr :=
  ⟨[(.COMMENT, "/// hi"), (.WHITESPACE, " "), (.IDENT, "a")], []⟩

/-- Modelled from the spec: one event stream the external parser may
produce for the desugared doc-comment tokens followed by the
identifier. -/
def eventsDocA : List Step :=
  [.token (.PUNCT '#') 1, .token (.PUNCT '[') 1, .token .IDENT 1,
   .token (.PUNCT '=') 1, .token .STRING_LIT 1, .token (.PUNCT ']') 1,
   .token .IDENT 1]

/-- The subtree `parse_to_token_tree` produces for a lexed stream (the
empty root when the lexer errored). -/
def ttOf (lexed : LexedStr) : Subtree :=
  match parse_to_token_tree lexed with
  | some (s, _) => s
  | none => ⟨none, []⟩

/-- The map `parse_to_token_tree` produces for a lexed stream. -/
def mapOf (lexed : LexedStr) : TokenMap :=
  match parse_to_token_tree lexed with
  | some (_, m) => m
  | none => TokenMap.empty

/-- Whether a map holds any delimiter-pair entry. -/
def TokenMap.hasDelimEntry (m : TokenMap) : Bool :=
  m.entries.any (fun e =>
    match e.2 with
    | .delim _ _ => true
    | .token _ => false)

/-- The ids of a map's ordinary/delimiter entries, in insertion order. -/
def mapIds (m : TokenMap) : List Nat :=
  m.entries.map (fun e => e.1)

/-- The ids of a map's synthetic entries, in insertion order. -/
def synthIds (m : TokenMap) : List Nat :=
  m.synthetic_entries.map (fun e => e.1)

/-- The allocator invariant: every id stored in the map is below
`next_id`, and ids are duplicate-free in the ordinary/delimiter relation
and in the synthetic relation. -/
def AllocInv (a : TokenIdAlloc) : Prop :=
  (∀ i ∈ mapIds a.map, i < a.next_id) ∧ (mapIds a.map).Nodup ∧
  (∀ i ∈ synthIds a.map, i < a.next_id) ∧ (synthIds a.map).Nodup

/-- The ranges stored by one map entry. -/
def entryRanges : TokenTextRange → List TextRange
  | .token r => [r]
  | .delim ro rc => [ro, rc]

/-- A range lying within some token of the stream. -/
def FromStream (stream : List SrcTok) (abs : TextRange) : Prop :=
  ∃ tok ∈ stream, tok.range.start ≤ abs.start ∧ abs.stop ≤ tok.range.stop

/-- A stored (relative) range either was present in the pre-existing map
or is a subrange of some stream token's absolute range shifted down by
the global offset `δ`. -/
def RangeOk (δ : Nat) (stream : List SrcTok) (m0 : TokenMap) (r : TextRange) : Prop :=
  (∃ e0 ∈ m0.entries, r ∈ entryRanges e0.2) ∨
  ∃ abs, FromStream stream abs ∧ r = abs.sub δ

/-- Every range of every entry of `m` is `RangeOk`. -/
def MapRangesOk (δ : Nat) (stream : List SrcTok) (m0 : TokenMap) (m : TokenMap) : Prop :=
  ∀ e ∈ m.entries, ∀ r ∈ entryRanges e.2, RangeOk δ stream m0 r

/-- Modelled from the spec: one event stream the external parser may
produce for the three tokens of `a + b` (an error item wrapping the three
tokens; only the `Token` steps matter to the reconstructed text). -/
def eventsPlus : List Step :=
  [.enter .ERROR, .token .IDENT 1, .token (.PUNCT '+') 1, .token .IDENT 1, .exit]

/-- A trivial instantiation of the fragment-parser interface, used for
witnesses: parse exactly one token tree as an expression. -/
def oneTreeOracle : ExprOracle where
  parseFragment := fun ts =>
    match ts with
    | [] => (none, [])
    | t :: rest => (some t, rest)
  law_some := by
    intro ts t rest h
    cases ts <;> simp_all
  law_none := by
    intro ts rest h
    cases ts <;> simp_all
  law_suffix := by
    intro ts
    cases ts with
    | nil => simp
    | cons h t => exact ⟨[h], rfl⟩

end SyntaxBridge

namespace SyntaxBridge

/-! # Theorems -/

/-- Concatenation law for the token-tree text rendering. -/
theorem ttListText_append (xs ys : List TokenTree) :
    ttListText (xs ++ ys) = ttListText xs ++ ttListText ys := by
  induction xs with
  | nil => simp [ttListText]
  | cons t ts ih => simp [ttListText, ih, String.append_assoc]

/-- The id returned by `alloc` is the current `next_id`. -/
theorem alloc_fst (a : TokenIdAlloc) (r : TextRange) (s : Option Nat) :
    (a.alloc r s).1 = a.next_id := rfl

/-- C2: `parse_to_token_tree` returns `none` iff the external lexer
reported at least one error; otherwise it returns the subtree produced by
the shared converter over the raw token stream together with the
`TokenMap` built during that conversion (fresh allocator, offset 0). -/
theorem C2_parse_to_tt_absent_iff_lexer_errors (lexed : LexedStr) :
    (parse_to_token_tree lexed = none ↔ lexed.errors ≠ []) ∧
    (lexed.errors = [] →
      parse_to_token_tree lexed =
        some ((convert_tokens (lexedStream lexed.tokens 0)
                { map := TokenMap.empty, global_offset := 0, next_id := 0 }).1,
              (convert_tokens (lexedStream lexed.tokens 0)
                { map := TokenMap.empty, global_offset := 0, next_id := 0 }).2.map)) := by
  unfold parse_to_token_tree
  by_cases h : lexed.errors = []
  · simp [h]
  · simp [h]

/-- C2 witness: a lexer error yields `none`; the empty error-free input
yields the empty root subtree and the empty map. -/
theorem C2_witness :
    parse_to_token_tree ⟨[], ["lexer error"]⟩ = none ∧
    parse_to_token_tree ⟨[], []⟩ = some (⟨none, []⟩, TokenMap.empty) := by
  refine ⟨(C2_parse_to_tt_absent_iff_lexer_errors ⟨[], ["lexer error"]⟩).1.mpr (by simp), ?_⟩
  have h := (C2_parse_to_tt_absent_iff_lexer_errors ⟨[], []⟩).2 rfl
  exact h.trans rfl

/-- C3: in the converter, a non-delimiter punctuation token becomes a
`Punct` leaf whose spacing is `spacingFor` of the peeked next token;
`spacingFor` is `Joint` iff that token exists, is not trivia, is
punctuation and is not `[`, `{`, `(` or underscore; and converting the
lexed `a :: b` yields exactly `Ident "a", Punct(':', Joint),
Punct(':', Alone), Ident "b"`. -/
theorem C3_punct_spacing :
    (∀ (tok : SrcTok) (toks : List SrcTok) (top : StackEntry) (rest : List StackEntry)
        (a : TokenIdAlloc),
      tok.kind.is_punct = true → tok.kind ≠ .UNDERSCORE →
      (∀ d, top.delimiter = some d → tok.kind ≠ closerKind d.kind) →
      delimKindOf tok.kind = none →
      convert_go (tok :: toks) top rest a =
        convert_go toks
          { top with children := top.children ++
              [TokenTree.punct tok.text.front (spacingFor ((toks.head?).map (·.kind)))
                a.next_id] }
          rest (a.alloc tok.range tok.synthetic).2) ∧
    (∀ k : Option SyntaxKind, spacingFor k = .Joint ↔
      ∃ kind, k = some kind ∧ kind.is_trivia = false ∧ kind.is_punct = true ∧
        kind ≠ .L_BRACK ∧ kind ≠ .L_CURLY ∧ kind ≠ .L_PAREN ∧ kind ≠ .UNDERSCORE) ∧
    parse_to_token_tree lexedColons =
      some (⟨none, [.ident "a" 0, .punct ':' .Joint 1, .punct ':' .Alone 2, .ident "b" 3]⟩,
        { entries := [(0, .token ⟨0, 1⟩), (1, .token ⟨2, 3⟩), (2, .token ⟨3, 4⟩),
                      (3, .token ⟨5, 6⟩)],
          synthetic_entries := [] }) := by
  refine ⟨?_, ?_, ?_⟩
  · intro tok toks top rest a hp hu hnc hnd
    have hcomment : tok.kind ≠ .COMMENT := by
      intro h
      rw [h] at hp
      simp [SyntaxKind.is_punct] at hp
    cases htd : top.delimiter with
    | none =>
      simp [convert_go, convert_step, hcomment, hp, hu, hnd, htd, alloc_fst]
    | some d =>
      have hne := hnc d htd
      simp [convert_go, convert_step, hcomment, hp, hu, hnd, htd, hne, alloc_fst]
  · intro k
    cases k with
    | none => simp [spacingFor]
    | some kind =>
      simp only [spacingFor]
      constructor
      · intro h
        split at h
        · next hb =>
          simp only [Bool.and_eq_true, Bool.not_eq_true', decide_eq_true_eq] at hb
          exact ⟨kind, rfl, hb.1.1.1.1.1, hb.1.1.1.1.2, hb.1.1.1.2, hb.1.1.2, hb.1.2, hb.2⟩
        · cases h
      · rintro ⟨kind', hk, h1, h2, h3, h4, h5, h6⟩
        cases hk
        simp [h1, h2, h3, h4, h5, h6]
  · rfl

/-- C3 witness: the punct step applied to a lone `+` token on the root
stack with a fresh allocator. -/
theorem C3_witness :
    convert_go [{ kind := .PUNCT '+', text := "+", range := ⟨0, 1⟩, synthetic := none }]
      { delimiter := none, children := [], idx := 0, open_range := ⟨0, 0⟩ } []
      { map := TokenMap.empty, global_offset := 0, next_id := 0 } =
    convert_go []
      { delimiter := none, children := [TokenTree.punct '+' .Alone 0], idx := 0,
        open_range := ⟨0, 0⟩ } []
      (TokenIdAlloc.alloc { map := TokenMap.empty, global_offset := 0, next_id := 0 }
        ⟨0, 1⟩ none).2 := by
  have h := C3_punct_spacing.1
    { kind := .PUNCT '+', text := "+", range := ⟨0, 1⟩, synthetic := none } []
    { delimiter := none, children := [], idx := 0, open_range := ⟨0, 0⟩ } []
    { map := TokenMap.empty, global_offset := 0, next_id := 0 }
    (by simp [SyntaxKind.is_punct]) (by simp) (by intro d hd; cases hd) rfl
  exact h

/-- C4: at end of stream with stack depth greater than one, `convert_go`
enters the flush loop; one flush step demotes the still-open subtree's
opener to a single `Alone` punct holding the literal opener character
under a freshly allocated id, places it in the parent immediately before
that subtree's children, removes the subtree's delimiter slot from the
map (`close_delim` with no close range — the pair is marked unclosed),
and loses no token text. -/
theorem C4_end_of_stream_repair (top p : StackEntry) (ps : List StackEntry)
    (a : TokenIdAlloc) (d : Delimiter) (hd : top.delimiter = some d) :
    convert_go [] top (p :: ps) a = convert_flush top (p :: ps) a ∧
    convert_flush top (p :: ps) a =
      convert_flush
        { p with children :=
            p.children ++ [TokenTree.punct (openerChar d.kind) .Alone a.next_id]
              ++ top.children }
        ps
        { a with
          map := (a.map.remove_delim top.idx).insert a.next_id
                   (top.open_range.sub a.global_offset),
          next_id := a.next_id + 1 } ∧
    ttListText (p.children ++ [TokenTree.punct (openerChar d.kind) .Alone a.next_id]
        ++ top.children)
      = ttListText p.children ++ String.singleton (openerChar d.kind)
          ++ ttListText top.children := by
  refine ⟨rfl, ?_, ?_⟩
  · rw [convert_flush]
    simp [TokenIdAlloc.close_delim, TokenIdAlloc.alloc, hd]
  · rw [ttListText_append, ttListText_append]
    simp [ttListText, ttText]

/-- C4 witness: one flush step on a concrete unclosed parenthesis above
the root. -/
theorem C4_witness :
    convert_flush
      { delimiter := some ⟨0, .Parenthesis⟩, children := [TokenTree.ident "x" 1], idx := 0,
        open_range := ⟨0, 1⟩ }
      [{ delimiter := none, children := [], idx := 0, open_range := ⟨0, 0⟩ }]
      { map := { entries := [(0, .delim ⟨0, 1⟩ ⟨0, 1⟩), (1, .token ⟨1, 2⟩)],
                 synthetic_entries := [] },
        global_offset := 0, next_id := 2 } =
    convert_flush
      { delimiter := none,
        children := [TokenTree.punct '(' .Alone 2, TokenTree.ident "x" 1], idx := 0,
        open_range := ⟨0, 0⟩ }
      []
      { map := { entries := [(1, .token ⟨1, 2⟩), (2, .token ⟨0, 1⟩)],
                 synthetic_entries := [] },
        global_offset := 0, next_id := 3 } := by
  have h := (C4_end_of_stream_repair
    { delimiter := some ⟨0, .Parenthesis⟩, children := [TokenTree.ident "x" 1], idx := 0,
      open_range := ⟨0, 1⟩ }
    { delimiter := none, children := [], idx := 0, open_range := ⟨0, 0⟩ } []
    { map := { entries := [(0, .delim ⟨0, 1⟩ ⟨0, 1⟩), (1, .token ⟨1, 2⟩)],
               synthetic_entries := [] },
      global_offset := 0, next_id := 2 }
    ⟨0, .Parenthesis⟩ rfl).2.1
  exact h.trans rfl

/-- C5 counterexample: converting a lone `(` leaves no delimiter entry at
all in the `TokenMap` — the unclosed pair is removed rather than recorded
with an absent close range. -/
theorem C5_counterexample :
    parse_to_token_tree lexedLoneParen =
      some (⟨none, [.punct '(' .Alone 1]⟩,
        { entries := [(1, .token ⟨0, 1⟩)], synthetic_entries := [] }) ∧
    TokenMap.hasDelimEntry
      { entries := [(1, .token ⟨0, 1⟩)], synthetic_entries := [] } = false :=
  ⟨rfl, rfl⟩

/-- C5 amended: after conversion of input containing an unclosed opening
delimiter, the affected pair's slot is removed from the `TokenMap`
(`close_delim` with an absent close range deletes the entry), and the
demoted opener is recorded as an ordinary token entry under a fresh
id. -/
theorem C5_amended_unclosed_delim_removed (s : String) :
    parse_to_token_tree ⟨[(.L_PAREN, "("), (.IDENT, s)], []⟩ =
      some (⟨none, [.punct '(' .Alone 2, .ident s 1]⟩,
        { entries := [(1, .token ⟨1, 1 + s.utf8ByteSize⟩), (2, .token ⟨0, 1⟩)],
          synthetic_entries := [] }) ∧
    (∀ (a : TokenIdAlloc) (idx : Nat),
      TokenIdAlloc.close_delim a idx none = { a with map := a.map.remove_delim idx }) := by
  exact ⟨rfl, fun a idx => rfl⟩

/-- C6 counterexample: converting `{ ( ]` yields a root whose children
are three puncts with no subtree among them — the claimed brace subtree
containing a paren subtree does not survive the end-of-stream repair. -/
theorem C6_counterexample :
    parse_to_token_tree lexedBraceParenBracket =
      some (⟨none, [.punct '{' .Alone 4, .punct '(' .Alone 3, .punct ']' .Alone 2]⟩,
        { entries := [(2, .token ⟨4, 5⟩), (3, .token ⟨2, 3⟩), (4, .token ⟨0, 1⟩)],
          synthetic_entries := [] }) ∧
    ([TokenTree.punct '{' .Alone 4, .punct '(' .Alone 3, .punct ']' .Alone 2].all
      (fun t => !t.isSubtree)) = true :=
  ⟨rfl, rfl⟩

/-- C6 amended: converting `{ ( ]` yields a root subtree whose children
are exactly the three `Alone` puncts `{`, `(`, `]`: the unmatched closer
is kept as an ordinary `Alone` punct, the unmatched openers are demoted
to `Alone` puncts on flush and flattened into the root, and no delimiter
entry remains in the map. -/
theorem C6_amended_repair_flattens :
    ttOf lexedBraceParenBracket =
      ⟨none, [.punct '{' .Alone 4, .punct '(' .Alone 3, .punct ']' .Alone 2]⟩ ∧
    mapOf lexedBraceParenBracket =
      { entries := [(2, .token ⟨4, 5⟩), (3, .token ⟨2, 3⟩), (4, .token ⟨0, 1⟩)],
        synthetic_entries := [] } ∧
    TokenMap.hasDelimEntry (mapOf lexedBraceParenBracket) = false :=
  ⟨rfl, rfl, rfl⟩

/-- C7: pulling a doc comment emits `#`, then `!` exactly for inner
placement, then a bracket subtree `[doc = "escaped body"]` whose literal
(the comment body with the prefix stripped, `*/` stripped for block
comments, quoted with escape-debug escaping) carries a freshly allocated
id whose map entry is the comment's range; non-doc comments produce no
output and no allocation. -/
theorem C7_doc_comment_desugaring (tok : SrcTok) (toks : List SrcTok)
    (top : StackEntry) (rest : List StackEntry) (a : TokenIdAlloc)
    (hk : tok.kind = .COMMENT) (hs : tok.synthetic = none) :
    (∀ pl, commentDoc tok.text = some pl →
      convert_go (tok :: toks) top rest a =
        convert_go toks
          { top with children := top.children ++
              (TokenTree.punct '#' .Alone unspecifiedId ::
                (if pl = .Inner then [TokenTree.punct '!' .Alone unspecifiedId] else []) ++
                [TokenTree.subtree (some ⟨unspecifiedId, .Bracket⟩)
                  [.ident "doc" unspecifiedId, .punct '=' .Alone unspecifiedId,
                   .literal (doc_comment_text tok.text) a.next_id]]) }
          rest
          { a with map := a.map.insert a.next_id (tok.range.sub a.global_offset),
                   next_id := a.next_id + 1 }) ∧
    (commentDoc tok.text = none →
      convert_go (tok :: toks) top rest a = convert_go toks top rest a) := by
  constructor
  · intro pl hpl
    cases pl with
    | Inner =>
      simp [convert_go, convert_step, hk, hs, convert_doc_comment_text, hpl, patchDocLit,
        TokenIdAlloc.alloc, List.modify, alloc_fst]
    | Outer =>
      simp [convert_go, convert_step, hk, hs, convert_doc_comment_text, hpl, patchDocLit,
        TokenIdAlloc.alloc, List.modify, alloc_fst]
  · intro hpl
    simp [convert_go, convert_step, hk, hs, convert_doc_comment_text, hpl]

/-- C7 witness: a concrete outer doc comment `/// hi` on the root stack
desugars to `# [doc = " hi"]` with the literal id freshly allocated and
mapped to the comment's range `0..6`. -/
theorem C7_witness :
    convert_go [{ kind := .COMMENT, text := "/// hi", range := ⟨0, 6⟩, synthetic := none }]
      { delimiter := none, children := [], idx := 0, open_range := ⟨0, 0⟩ } []
      { map := TokenMap.empty, global_offset := 0, next_id := 0 } =
    convert_go []
      { delimiter := none,
        children :=
          [TokenTree.punct '#' .Alone unspecifiedId,
           TokenTree.subtree (some ⟨unspecifiedId, .Bracket⟩)
             [.ident "doc" unspecifiedId, .punct '=' .Alone unspecifiedId,
              .literal (doc_comment_text "/// hi") 0]],
        idx := 0, open_range := ⟨0, 0⟩ } []
      { map := { entries := [(0, .token ⟨0, 6⟩)], synthetic_entries := [] },
        global_offset := 0, next_id := 1 } := by
  have h := (C7_doc_comment_desugaring
    { kind := .COMMENT, text := "/// hi", range := ⟨0, 6⟩, synthetic := none } []
    { delimiter := none, children := [], idx := 0, open_range := ⟨0, 0⟩ } []
    { map := TokenMap.empty, global_offset := 0, next_id := 0 } rfl rfl).1 .Outer (by decide)
  exact h.trans rfl

/-- C8: the splitter returns `[]` for an empty token-tree list; a first
parse failure ends the split with all remaining token trees collected in
one final delimiter-free subtree; a successful parse appends the
expression and continues only when one `sep` punct follows, otherwise the
split ends with any non-empty remainder collected in one final
delimiter-free subtree. -/
theorem C8_parse_exprs_with_sep (P : ExprOracle) (sep : Char) :
    (∀ tt : Subtree, tt.token_trees = [] → parse_exprs_with_sep P tt sep = []) ∧
    (∀ tt : Subtree, tt.token_trees ≠ [] →
      P.parseFragment tt.token_trees = (none, tt.token_trees) →
      parse_exprs_with_sep P tt sep = [⟨none, tt.token_trees⟩]) ∧
    (∀ (tt : Subtree) (t : TokenTree) (rest : List TokenTree), tt.token_trees ≠ [] →
      P.parseFragment tt.token_trees = (some t, rest) →
      parse_exprs_with_sep P tt sep =
        fragToSubtree t ::
          (match expect_char sep rest with
           | some rest' => parse_exprs_loop P sep rest'
           | none => if rest.isEmpty then [] else [⟨none, rest⟩])) := by
  refine ⟨?_, ?_, ?_⟩
  · intro tt h
    simp [parse_exprs_with_sep, h]
  · intro tt hne hfrag
    cases htt : tt.token_trees with
    | nil => exact absurd htt hne
    | cons x xs =>
      rw [htt] at hfrag
      unfold parse_exprs_with_sep
      rw [htt, parse_exprs_loop.eq_def]
      simp only [List.isEmpty_cons, Bool.false_eq_true, if_false]
      split
      · rfl
      · next t' rest' heq =>
        rw [hfrag] at heq
        cases heq
  · intro tt t rest hne hfrag
    cases htt : tt.token_trees with
    | nil => exact absurd htt hne
    | cons x xs =>
      rw [htt] at hfrag
      unfold parse_exprs_with_sep
      rw [htt, parse_exprs_loop.eq_def]
      simp only [List.isEmpty_cons, Bool.false_eq_true, if_false]
      split
      · next heq =>
        rw [hfrag] at heq
        cases heq
      · next t' rest' heq =>
        rw [hfrag] at heq
        cases heq
        split
        · next rest'' heq2 =>
          rw [heq2]
        · next heq2 =>
          rw [heq2]

/-- C8 witness: splitting `x , y` at `,` with the one-tree oracle gives
the two singleton subtrees. -/
theorem C8_witness :
    parse_exprs_with_sep oneTreeOracle
      ⟨none, [.ident "x" 0, .punct ',' .Alone 1, .ident "y" 2]⟩ ',' =
      [⟨none, [.ident "x" 0]⟩, ⟨none, [.ident "y" 2]⟩] := by
  have h := (C8_parse_exprs_with_sep oneTreeOracle ',').2.2
    ⟨none, [.ident "x" 0, .punct ',' .Alone 1, .ident "y" 2]⟩
    (.ident "x" 0) [.punct ',' .Alone 1, .ident "y" 2] (by simp) rfl
  rw [h]
  show fragToSubtree (TokenTree.ident "x" 0) ::
      parse_exprs_loop oneTreeOracle ',' [TokenTree.ident "y" 2] =
    [⟨none, [TokenTree.ident "x" 0]⟩, ⟨none, [TokenTree.ident "y" 2]⟩]
  rw [parse_exprs_loop.eq_def]
  rfl

/-! ### Allocator invariants (C9) -/

/-- Appending a fresh element keeps a bounded list duplicate-free. -/
theorem nodup_append_fresh {ids : List Nat} {n : Nat}
    (hlt : ∀ i ∈ ids, i < n) (hnd : ids.Nodup) :
    (ids ++ [n]).Nodup ∧ ∀ i ∈ ids ++ [n], i < n + 1 := by
  constructor
  · rw [List.nodup_append]
    refine ⟨hnd, List.nodup_singleton n, ?_⟩
    intro x hx hx'
    simp at hx'
    subst hx'
    exact absurd (hlt x hx) (lt_irrefl x)
  · intro i hi
    rcases List.mem_append.mp hi with h | h
    · exact Nat.lt_succ_of_lt (hlt i h)
    · simp at h
      omega

/-- `alloc` appends exactly the minted id to the ordinary relation. -/
theorem mapIds_alloc (a : TokenIdAlloc) (r : TextRange) (s : Option Nat) :
    mapIds (a.alloc r s).2.map = mapIds a.map ++ [a.next_id] := by
  cases s <;>
    simp [TokenIdAlloc.alloc, TokenMap.insert, TokenMap.insert_synthetic, mapIds]

/-- `alloc` appends the minted id to the synthetic relation only when a
synthetic origin is given. -/
theorem synthIds_alloc (a : TokenIdAlloc) (r : TextRange) (s : Option Nat) :
    synthIds (a.alloc r s).2.map =
      synthIds a.map ++ (match s with | some _ => [a.next_id] | none => []) := by
  cases s <;>
    simp [TokenIdAlloc.alloc, TokenMap.insert, TokenMap.insert_synthetic, synthIds]

/-- `open_delim` appends exactly the minted id to the ordinary relation. -/
theorem mapIds_open_delim (a : TokenIdAlloc) (r : TextRange) :
    mapIds (a.open_delim r).2.2.map = mapIds a.map ++ [a.next_id] := by
  simp [TokenIdAlloc.open_delim, TokenMap.insert_delim, mapIds]

/-- `open_delim` leaves the synthetic relation unchanged. -/
theorem synthIds_open_delim (a : TokenIdAlloc) (r : TextRange) :
    synthIds (a.open_delim r).2.2.map = synthIds a.map := rfl

/-- `update_close_delim` keeps the entry ids unchanged. -/
theorem mapIds_update_close (m : TokenMap) (idx : Nat) (rc : TextRange) :
    mapIds (m.update_close_delim idx rc) = mapIds m := by
  unfold TokenMap.update_close_delim mapIds
  simp only
  generalize m.entries = l
  induction l generalizing idx with
  | nil => simp [List.modify_nil]
  | cons e es ih =>
    cases idx with
    | zero =>
      obtain ⟨id, tr⟩ := e
      cases tr <;> simp [List.modify_zero_cons]
    | succ n =>
      simp [List.modify_succ_cons, ih]

/-- The ordinary ids after `close_delim` are a sublist of those before. -/
theorem mapIds_close_delim_sublist (a : TokenIdAlloc) (idx : Nat)
    (c : Option TextRange) :
    (mapIds (a.close_delim idx c).map).Sublist (mapIds a.map) := by
  cases c with
  | none =>
    simp only [TokenIdAlloc.close_delim, TokenMap.remove_delim, mapIds]
    exact (List.eraseIdx_sublist _ idx).map _
  | some rc =>
    simp only [TokenIdAlloc.close_delim]
    rw [mapIds_update_close]

/-- `close_delim` changes neither `next_id` nor the synthetic relation. -/
theorem close_delim_fields (a : TokenIdAlloc) (idx : Nat) (c : Option TextRange) :
    (a.close_delim idx c).next_id = a.next_id ∧
    synthIds (a.close_delim idx c).map = synthIds a.map ∧
    (a.close_delim idx c).global_offset = a.global_offset := by
  cases c <;> exact ⟨rfl, rfl, rfl⟩

/-- `alloc` preserves the allocator invariant. -/
theorem allocInv_alloc (a : TokenIdAlloc) (r : TextRange) (s : Option Nat)
    (h : AllocInv a) : AllocInv (a.alloc r s).2 := by
  obtain ⟨h1, h2, h3, h4⟩ := h
  have base := nodup_append_fresh h1 h2
  have hnext : (a.alloc r s).2.next_id = a.next_id + 1 := by cases s <;> rfl
  refine ⟨?_, ?_, ?_, ?_⟩
  · rw [mapIds_alloc, hnext]
    exact base.2
  · rw [mapIds_alloc]
    exact base.1
  · rw [synthIds_alloc, hnext]
    cases s with
    | none =>
      intro i hi
      simp only [List.append_nil] at hi
      exact Nat.lt_succ_of_lt (h3 i hi)
    | some sid =>
      exact (nodup_append_fresh h3 h4).2
  · rw [synthIds_alloc]
    cases s with
    | none => simpa using h4
    | some sid => exact (nodup_append_fresh h3 h4).1

/-- `open_delim` preserves the allocator invariant. -/
theorem allocInv_open_delim (a : TokenIdAlloc) (r : TextRange)
    (h : AllocInv a) : AllocInv (a.open_delim r).2.2 := by
  obtain ⟨h1, h2, h3, h4⟩ := h
  have base := nodup_append_fresh h1 h2
  refine ⟨?_, ?_, ?_, ?_⟩
  · rw [mapIds_open_delim]
    exact base.2
  · rw [mapIds_open_delim]
    exact base.1
  · rw [synthIds_open_delim]
    intro i hi
    exact Nat.lt_succ_of_lt (h3 i hi)
  · rw [synthIds_open_delim]
    exact h4

/-- `close_delim` preserves the allocator invariant. -/
theorem allocInv_close_delim (a : TokenIdAlloc) (idx : Nat) (c : Option TextRange)
    (h : AllocInv a) : AllocInv (a.close_delim idx c) := by
  obtain ⟨h1, h2, h3, h4⟩ := h
  obtain ⟨hn, hs, _⟩ := close_delim_fields a idx c
  have hsub := mapIds_close_delim_sublist a idx c
  refine ⟨?_, ?_, ?_, ?_⟩
  · intro i hi
    rw [hn]
    exact h1 i (hsub.subset hi)
  · exact hsub.nodup h2
  · intro i hi
    rw [hn]
    rw [hs] at hi
    exact h3 i hi
  · rw [hs]
    exact h4

/-- The flush loop preserves the allocator invariant. -/
theorem allocInv_convert_flush (top : StackEntry) (rest : List StackEntry)
    (a : TokenIdAlloc) (h : AllocInv a) :
    AllocInv (convert_flush top rest a).2 := by
  induction rest generalizing top a with
  | nil => exact h
  | cons p ps ih =>
    rw [convert_flush]
    exact ih _ _ (allocInv_alloc (a.close_delim top.idx none) top.open_range none
      (allocInv_close_delim a top.idx none h))

/-- One converter step preserves the allocator invariant. -/
theorem allocInv_convert_step (tok : SrcTok) (peeked : Option SyntaxKind)
    (top : StackEntry) (rest : List StackEntry) (a : TokenIdAlloc) (h : AllocInv a) :
    AllocInv (convert_step tok peeked top rest a).2.2 := by
  unfold convert_step
  dsimp only
  repeat' split
  all_goals
    first
      | exact h
      | exact allocInv_alloc _ _ _ h
      | exact allocInv_close_delim _ _ _ h
      | exact allocInv_open_delim _ _ h
      | exact allocInv_alloc _ _ _ (allocInv_alloc _ _ _ h)

/-- The converter's main loop preserves the allocator invariant. -/
theorem allocInv_convert_go (toks : List SrcTok) (top : StackEntry)
    (rest : List StackEntry) (a : TokenIdAlloc) (h : AllocInv a) :
    AllocInv (convert_go toks top rest a).2 := by
  induction toks generalizing top rest a with
  | nil => exact allocInv_convert_flush _ _ _ h
  | cons tok toks ih =>
    rw [convert_go]
    exact ih _ _ _ (allocInv_convert_step _ _ _ _ _ h)

/-- The allocator state returned by `convert_tokens` is that of the main
loop. -/
theorem convert_tokens_snd (stream : List SrcTok) (a : TokenIdAlloc) :
    (convert_tokens stream a).2 =
      (convert_go stream
        { delimiter := none, children := [], idx := 0, open_range := ⟨0, 0⟩ }
        [] a).2 := by
  unfold convert_tokens
  dsimp only
  split <;> rfl

/-- C9: the allocator mints ids in strictly increasing order (`alloc` and
`open_delim` return the current `next_id` and increase it by exactly
one), and from any state satisfying the allocator invariant — in
particular a fresh one — the map `convert_tokens` returns has
duplicate-free ids in the ordinary/delimiter relation and in the
synthetic relation. -/
theorem C9_id_uniqueness (a : TokenIdAlloc) (r : TextRange) (s : Option Nat)
    (stream : List SrcTok) (h : AllocInv a) :
    (a.alloc r s).1 = a.next_id ∧
    (a.alloc r s).2.next_id = a.next_id + 1 ∧
    (a.open_delim r).1 = a.next_id ∧
    (a.open_delim r).2.2.next_id = a.next_id + 1 ∧
    (mapIds (convert_tokens stream a).2.map).Nodup ∧
    (synthIds (convert_tokens stream a).2.map).Nodup := by
  have hnext : (a.alloc r s).2.next_id = a.next_id + 1 := by cases s <;> rfl
  have hinv := allocInv_convert_go stream
    { delimiter := none, children := [], idx := 0, open_range := ⟨0, 0⟩ } [] a h
  rw [← convert_tokens_snd] at hinv
  exact ⟨rfl, hnext, rfl, rfl, hinv.2.1, hinv.2.2.2⟩

/-- C9 witness: the fresh allocator satisfies the invariant, and the ids
of the map produced for the lexed `a :: b` are duplicate-free. -/
theorem C9_witness :
    (mapIds (convert_tokens (lexedStream lexedColons.tokens 0)
      { map := TokenMap.empty, global_offset := 0, next_id := 0 }).2.map).Nodup := by
  have h := C9_id_uniqueness
    { map := TokenMap.empty, global_offset := 0, next_id := 0 } ⟨0, 0⟩ none
    (lexedStream lexedColons.tokens 0)
    (by refine ⟨?_, ?_, ?_, ?_⟩ <;> simp [mapIds, synthIds, TokenMap.empty])
  exact h.2.2.2.2.1

/-! ### Range bookkeeping (C10) -/

/-- Membership in a modified list: an element is either an old element or
the image of the one at the modified index. -/
theorem mem_modify {α : Type} (f : α → α) (n : Nat) (l : List α) :
    ∀ x ∈ List.modify f n l, x ∈ l ∨ ∃ y, y ∈ l ∧ x = f y := by
  induction l generalizing n with
  | nil =>
    intro x hx
    rw [List.modify_nil] at hx
    cases hx
  | cons e es ih =>
    intro x hx
    cases n with
    | zero =>
      rw [List.modify_zero_cons] at hx
      rcases List.mem_cons.mp hx with h | h
      · exact Or.inr ⟨e, List.mem_cons_self e es, h⟩
      · exact Or.inl (List.mem_cons_of_mem _ h)
    | succ n =>
      rw [List.modify_succ_cons] at hx
      rcases List.mem_cons.mp hx with h | h
      · exact Or.inl (h ▸ List.mem_cons_self e es)
      · rcases ih n x h with h' | ⟨y, hy, hxy⟩
        · exact Or.inl (List.mem_cons_of_mem _ h')
        · exact Or.inr ⟨y, List.mem_cons_of_mem _ hy, hxy⟩

/-- `FromStream` is monotone under extending the stream on the left. -/
theorem fromStream_cons {tok : SrcTok} {toks : List SrcTok} {abs : TextRange}
    (h : FromStream toks abs) : FromStream (tok :: toks) abs := by
  obtain ⟨t, ht, h1, h2⟩ := h
  exact ⟨t, List.mem_cons_of_mem _ ht, h1, h2⟩

/-- A token's own range comes from any stream containing it. -/
theorem fromStream_self {tok : SrcTok} {toks : List SrcTok} (h : tok ∈ toks) :
    FromStream toks tok.range :=
  ⟨tok, h, Nat.le_refl _, Nat.le_refl _⟩

/-- `insert` preserves `MapRangesOk` when the inserted range is good. -/
theorem rangesOk_insert {δ : Nat} {stream : List SrcTok} {m0 m : TokenMap}
    (h : MapRangesOk δ stream m0 m) (id : Nat) {r : TextRange}
    (hr : RangeOk δ stream m0 r) : MapRangesOk δ stream m0 (m.insert id r) := by
  intro e he r' hr'
  rcases List.mem_append.mp he with h1 | h1
  · exact h e h1 r' hr'
  · simp at h1
    subst h1
    simp [entryRanges] at hr'
    subst hr'
    exact hr

/-- `insert_delim` preserves `MapRangesOk` when both ranges are good. -/
theorem rangesOk_insert_delim {δ : Nat} {stream : List SrcTok} {m0 m : TokenMap}
    (h : MapRangesOk δ stream m0 m) (id : Nat) {ro rc : TextRange}
    (hro : RangeOk δ stream m0 ro) (hrc : RangeOk δ stream m0 rc) :
    MapRangesOk δ stream m0 (m.insert_delim id ro rc).2 := by
  intro e he r' hr'
  rcases List.mem_append.mp he with h1 | h1
  · exact h e h1 r' hr'
  · simp at h1
    subst h1
    simp [entryRanges] at hr'
    rcases hr' with rfl | rfl
    · exact hro
    · exact hrc

/-- `alloc` preserves `MapRangesOk` when the absolute range comes from the
stream. -/
theorem rangesOk_alloc {δ : Nat} {stream : List SrcTok} {m0 : TokenMap}
    {a : TokenIdAlloc} (h : MapRangesOk δ stream m0 a.map)
    (hδ : a.global_offset = δ) {abs : TextRange} (habs : FromStream stream abs)
    (s : Option Nat) : MapRangesOk δ stream m0 (a.alloc abs s).2.map := by
  have hr : RangeOk δ stream m0 (abs.sub a.global_offset) :=
    Or.inr ⟨abs, habs, by rw [hδ]⟩
  cases s with
  | none => exact rangesOk_insert h a.next_id hr
  | some sid => exact rangesOk_insert h a.next_id hr

/-- `open_delim` preserves `MapRangesOk` when the absolute range comes
from the stream. -/
theorem rangesOk_open_delim {δ : Nat} {stream : List SrcTok} {m0 : TokenMap}
    {a : TokenIdAlloc} (h : MapRangesOk δ stream m0 a.map)
    (hδ : a.global_offset = δ) {abs : TextRange} (habs : FromStream stream abs) :
    MapRangesOk δ stream m0 (a.open_delim abs).2.2.map := by
  have hr : RangeOk δ stream m0 (abs.sub a.global_offset) :=
    Or.inr ⟨abs, habs, by rw [hδ]⟩
  exact rangesOk_insert_delim h a.next_id hr hr

/-- `update_close_delim` preserves `MapRangesOk` when the new close range
is good. -/
theorem rangesOk_update_close {δ : Nat} {stream : List SrcTok} {m0 m : TokenMap}
    (h : MapRangesOk δ stream m0 m) (idx : Nat) {rc : TextRange}
    (hrc : RangeOk δ stream m0 rc) :
    MapRangesOk δ stream m0 (m.update_close_delim idx rc) := by
  intro e he r' hr'
  rcases mem_modify _ idx m.entries e he with h1 | ⟨y, hy, hxy⟩
  · exact h e h1 r' hr'
  · subst hxy
    obtain ⟨yid, ytr⟩ := y
    cases ytr with
    | token r => exact h _ hy r' hr'
    | delim ro rc0 =>
      simp [entryRanges] at hr'
      rcases hr' with rfl | rfl
      · exact h _ hy r' (by simp [entryRanges])
      · exact hrc

/-- `remove_delim` preserves `MapRangesOk`. -/
theorem rangesOk_remove {δ : Nat} {stream : List SrcTok} {m0 m : TokenMap}
    (h : MapRangesOk δ stream m0 m) (idx : Nat) :
    MapRangesOk δ stream m0 (m.remove_delim idx) := by
  intro e he
  exact h e ((List.eraseIdx_sublist _ idx).subset he)

/-- `close_delim` preserves `MapRangesOk` when a present close range comes
from the stream. -/
theorem rangesOk_close_delim {δ : Nat} {stream : List SrcTok} {m0 : TokenMap}
    {a : TokenIdAlloc} (h : MapRangesOk δ stream m0 a.map)
    (hδ : a.global_offset = δ) (idx : Nat) (c : Option TextRange)
    (hc : ∀ r, c = some r → FromStream stream r) :
    MapRangesOk δ stream m0 (a.close_delim idx c).map := by
  cases c with
  | none => exact rangesOk_remove h idx
  | some rc =>
    exact rangesOk_update_close h idx (Or.inr ⟨rc, hc rc rfl, by rw [hδ]⟩)

/-- `alloc` does not change the global offset. -/
theorem global_offset_alloc (a : TokenIdAlloc) (r : TextRange) (s : Option Nat) :
    (a.alloc r s).2.global_offset = a.global_offset := by
  cases s <;> rfl

/-- `open_delim` does not change the global offset. -/
theorem global_offset_open_delim (a : TokenIdAlloc) (r : TextRange) :
    (a.open_delim r).2.2.global_offset = a.global_offset := rfl

/-- `close_delim` does not change the global offset. -/
theorem global_offset_close_delim (a : TokenIdAlloc) (idx : Nat)
    (c : Option TextRange) :
    (a.close_delim idx c).global_offset = a.global_offset := by
  cases c <;> rfl

/-- Transport of the stack condition when only the top's children (not
its opener range) change. -/
theorem stack_dropLast_congr {full : List SrcTok} {top top' : StackEntry}
    {rest : List StackEntry} (hsame : top'.open_range = top.open_range)
    (hstack : ∀ e ∈ (top :: rest).dropLast, FromStream full e.open_range) :
    ∀ e ∈ (top' :: rest).dropLast, FromStream full e.open_range := by
  cases rest with
  | nil =>
    intro e he
    simp at he
  | cons q qs =>
    intro e he
    rw [List.dropLast_cons₂] at he
    rcases List.mem_cons.mp he with rfl | h
    · rw [hsame]
      exact hstack top (by rw [List.dropLast_cons₂]; exact List.mem_cons_self _ _)
    · exact hstack e (by rw [List.dropLast_cons₂]; exact List.mem_cons_of_mem _ h)

/-- The tail of the stack keeps the opener condition. -/
theorem stack_dropLast_tail {full : List SrcTok} {top p : StackEntry}
    {ps : List StackEntry}
    (hstack : ∀ e ∈ (top :: p :: ps).dropLast, FromStream full e.open_range) :
    ∀ e ∈ (p :: ps).dropLast, FromStream full e.open_range := by
  intro e he
  exact hstack e (by rw [List.dropLast_cons₂]; exact List.mem_cons_of_mem _ he)

/-- Pushing an entry whose opener range comes from the stream keeps the
opener condition. -/
theorem stack_dropLast_push {full : List SrcTok} {new top : StackEntry}
    {rest : List StackEntry} (hnew : FromStream full new.open_range)
    (hstack : ∀ e ∈ (top :: rest).dropLast, FromStream full e.open_range) :
    ∀ e ∈ (new :: top :: rest).dropLast, FromStream full e.open_range := by
  intro e he
  rw [List.dropLast_cons₂] at he
  rcases List.mem_cons.mp he with rfl | h
  · exact hnew
  · exact hstack e h

/-- One converter step keeps all map ranges good, keeps the global
offset, and keeps the opener condition on the stack. -/
theorem rangesOk_convert_step (full : List SrcTok) (δ : Nat) (m0 : TokenMap)
    (tok : SrcTok) (peeked : Option SyntaxKind) (top : StackEntry)
    (rest : List StackEntry) (a : TokenIdAlloc)
    (hδ : a.global_offset = δ) (htok : tok ∈ full)
    (hlife : tok.kind = .LIFETIME_IDENT → tok.range.start + 1 ≤ tok.range.stop)
    (hstack : ∀ e ∈ (top :: rest).dropLast, FromStream full e.open_range)
    (h : MapRangesOk δ full m0 a.map) :
    MapRangesOk δ full m0 (convert_step tok peeked top rest a).2.2.map ∧
    (convert_step tok peeked top rest a).2.2.global_offset = δ ∧
    (∀ e ∈ ((convert_step tok peeked top rest a).1 ::
        (convert_step tok peeked top rest a).2.1).dropLast,
      FromStream full e.open_range) := by
  unfold convert_step
  dsimp only
  repeat' split
  all_goals refine ⟨?_, ?_, ?_⟩
  all_goals
    first
      | exact h
      | exact hδ
      | exact hstack
      | exact rangesOk_alloc h hδ (fromStream_self htok) _
      | exact rangesOk_open_delim h hδ (fromStream_self htok)
      | exact rangesOk_close_delim h hδ _ _
          (by intro r hr; cases hr; exact fromStream_self htok)
      | (refine rangesOk_alloc (rangesOk_alloc h hδ ?_ _) ?_ ?_ _
         · exact ⟨tok, htok, Nat.le_refl _, hlife (by assumption)⟩
         · exact (global_offset_alloc _ _ _).trans hδ
         · exact ⟨tok, htok, Nat.le_succ_of_le (Nat.le_refl _), Nat.le_refl _⟩)
      | exact (global_offset_alloc _ _ _).trans hδ
      | exact (global_offset_open_delim _ _).trans hδ
      | exact (global_offset_close_delim _ _ _).trans hδ
      | exact (global_offset_alloc _ _ _).trans ((global_offset_alloc _ _ _).trans hδ)
      | (refine stack_dropLast_congr ?_ hstack
         rfl)
      | (refine stack_dropLast_congr ?_ (stack_dropLast_tail hstack)
         rfl)
      | (refine stack_dropLast_push ?_ hstack
         exact fromStream_self htok)

/-- The flush loop keeps all map ranges good. -/
theorem rangesOk_convert_flush (full : List SrcTok) (δ : Nat) (m0 : TokenMap)
    (top : StackEntry) (rest : List StackEntry) (a : TokenIdAlloc)
    (hδ : a.global_offset = δ)
    (hstack : ∀ e ∈ (top :: rest).dropLast, FromStream full e.open_range)
    (h : MapRangesOk δ full m0 a.map) :
    MapRangesOk δ full m0 (convert_flush top rest a).2.map := by
  induction rest generalizing top a with
  | nil => exact h
  | cons p ps ih =>
    rw [convert_flush]
    have htop : FromStream full top.open_range :=
      hstack top (by rw [List.dropLast_cons₂]; exact List.mem_cons_self _ _)
    refine ih _ _ ?_ ?_ ?_
    · rw [global_offset_alloc, global_offset_close_delim, hδ]
    · cases ps with
      | nil =>
        intro e he
        simp at he
      | cons q qs =>
        intro e he
        rw [List.dropLast_cons₂] at he
        rcases List.mem_cons.mp he with rfl | hmem
        · exact hstack p (by
            rw [List.dropLast_cons₂]
            exact List.mem_cons_of_mem _ (by
              rw [List.dropLast_cons₂]
              exact List.mem_cons_self _ _))
        · exact hstack e (by
            rw [List.dropLast_cons₂]
            exact List.mem_cons_of_mem _ (by
              rw [List.dropLast_cons₂]
              exact List.mem_cons_of_mem _ hmem))
    · exact rangesOk_alloc
        (rangesOk_close_delim h hδ _ _ (by intro r hr; cases hr))
        ((global_offset_close_delim _ _ _).trans hδ) htop _

/-- The converter's main loop keeps all map ranges good. -/
theorem rangesOk_convert_go (full : List SrcTok) (δ : Nat) (m0 : TokenMap)
    (toks : List SrcTok) (top : StackEntry) (rest : List StackEntry)
    (a : TokenIdAlloc) (hδ : a.global_offset = δ)
    (hsub : ∀ tok ∈ toks, tok ∈ full)
    (hlife : ∀ tok ∈ toks, tok.kind = .LIFETIME_IDENT →
      tok.range.start + 1 ≤ tok.range.stop)
    (hstack : ∀ e ∈ (top :: rest).dropLast, FromStream full e.open_range)
    (h : MapRangesOk δ full m0 a.map) :
    MapRangesOk δ full m0 (convert_go toks top rest a).2.map := by
  induction toks generalizing top rest a with
  | nil => exact rangesOk_convert_flush full δ m0 top rest a hδ hstack h
  | cons tok toks ih =>
    rw [convert_go]
    obtain ⟨h1, h2, h3⟩ := rangesOk_convert_step full δ m0 tok
      ((toks.head?).map (·.kind)) top rest a hδ (hsub tok (List.mem_cons_self _ _))
      (hlife tok (List.mem_cons_self _ _)) hstack h
    exact ih _ _ _ h2
      (fun t ht => hsub t (List.mem_cons_of_mem _ ht))
      (fun t ht => hlife t (List.mem_cons_of_mem _ ht)) h3 h1

/-- C10: `syntax_node_to_token_tree_with_modifications` fixes the
allocator's global offset to the node's starting offset, so every range
recorded in the returned map during the conversion is a (sub)range of
some stream token's absolute range shifted down by the node's starting
offset; pre-existing entries of the given map are the only other
entries.  (Ranges are relative to the converted node, not the file.) -/
theorem C10_ranges_relative_to_node (node : SyntaxNode) (m0 : TokenMap) (nid : Nat)
    (hlife : ∀ tok ∈ node.stream, tok.kind = .LIFETIME_IDENT →
      tok.range.start + 1 ≤ tok.range.stop) :
    ∀ e ∈ (syntax_node_to_token_tree_with_modifications node m0 nid).2.1.entries,
      ∀ r ∈ entryRanges e.2,
        (∃ e0 ∈ m0.entries, r ∈ entryRanges e0.2) ∨
        ∃ abs, FromStream node.stream abs ∧ r = abs.sub node.startOff := by
  have h0 : MapRangesOk node.startOff node.stream m0
      ({ map := m0, global_offset := node.startOff, next_id := nid } : TokenIdAlloc).map :=
    fun e he r hr => Or.inl ⟨e, he, hr⟩
  have hgo := rangesOk_convert_go node.stream node.startOff m0 node.stream
    { delimiter := none, children := [], idx := 0, open_range := ⟨0, 0⟩ } []
    { map := m0, global_offset := node.startOff, next_id := nid } rfl
    (fun t ht => ht) hlife (by intro e he; simp at he) h0
  intro e he r hr
  have he2 : e ∈ (convert_go node.stream
      { delimiter := none, children := [], idx := 0, open_range := ⟨0, 0⟩ } []
      { map := m0, global_offset := node.startOff, next_id := nid }).2.map.entries := by
    have hsnd := convert_tokens_snd node.stream
      { map := m0, global_offset := node.startOff, next_id := nid }
    rw [← hsnd]
    exact he
  exact hgo e he2 r hr

/-- C10 witness: converting a node starting at offset 5 whose stream is a
single identifier spanning bytes 5-7 stores a node-relative range for its
single map entry, the range 0-2. -/
theorem C10_witness :
    (∃ e0 ∈ TokenMap.empty.entries, TextRange.mk 0 2 ∈ entryRanges e0.2) ∨
    ∃ abs,
      FromStream [{ kind := .IDENT, text := "ab", range := ⟨5, 7⟩, synthetic := none }]
        abs ∧ TextRange.mk 0 2 = abs.sub 5 :=
  C10_ranges_relative_to_node
    ⟨5, [{ kind := .IDENT, text := "ab", range := ⟨5, 7⟩, synthetic := none }]⟩
    TokenMap.empty 0
    (by intro tok ht hk; simp at ht; rw [ht] at hk; cases hk)
    (0, TokenTextRange.token ⟨0, 2⟩) (List.mem_singleton.mpr rfl)
    ⟨0, 2⟩ (List.mem_singleton.mpr rfl)


/-! ### Converter text preservation (C1) -/

/-- `String.join` over a cons. -/
theorem join_cons (a : String) (l : List String) :
    String.join (a :: l) = a ++ String.join l := by
  suffices h : ∀ (l : List String) (x : String),
      List.foldl (fun r s => r ++ s) x l = x ++ List.foldl (fun r s => r ++ s) "" l by
    simpa [String.join] using h l a
  intro l
  induction l with
  | nil =>
    intro x
    simp
  | cons b bs ih =>
    intro x
    simp only [List.foldl_cons]
    rw [ih (x ++ b), ih (("" : String) ++ b)]
    simp [String.append_assoc]

/-- `streamText` over a cons. -/
theorem streamText_cons (t : SrcTok) (ts : List SrcTok) :
    streamText (t :: ts) = tokText t ++ streamText ts := by
  simp [streamText, join_cons]

/-- Text of a singleton token-tree list. -/
theorem ttListText_single (t : TokenTree) : ttListText [t] = ttText t := by
  simp [ttListText, String.append_empty]

/-- The opener character renders as the opening delimiter string. -/
theorem singleton_openerChar (k : DelimiterKind) :
    String.singleton (openerChar k) = delim_to_str k false := by
  cases k <;> rfl

/-- Extending the top entry's children extends the stack text. -/
theorem stackText_children_append (p : StackEntry) (ps : List StackEntry)
    (extra : List TokenTree) :
    stackText { p with children := p.children ++ extra } ps =
      stackText p ps ++ ttListText extra := by
  cases ps with
  | nil => simp [stackText, ttListText_append]
  | cons q qs => simp [stackText, ttListText_append, String.append_assoc]

/-- `lastEntry` ignores changes to entries above the bottom. -/
theorem lastEntry_cons (x p : StackEntry) (ps : List StackEntry) :
    lastEntry x (p :: ps) = lastEntry p ps := rfl

/-- The flush loop renders exactly the stack text and returns the bottom
entry's delimiter. -/
theorem flush_text (top : StackEntry) (rest : List StackEntry) (a : TokenIdAlloc) :
    ttListText (convert_flush top rest a).1.children = stackText top rest ∧
    (convert_flush top rest a).1.delimiter = (lastEntry top rest).delimiter := by
  induction rest generalizing top a with
  | nil => exact ⟨rfl, rfl⟩
  | cons p ps ih =>
    rw [convert_flush]
    constructor
    · rw [(ih _ _).1]
      rw [show ({ p with children := p.children ++
            [TokenTree.punct (match top.delimiter with
              | some d => openerChar d.kind
              | none => '(') .Alone ((a.close_delim top.idx none).alloc top.open_range none).1]
            ++ top.children } : StackEntry) =
          { p with children := p.children ++
            ([TokenTree.punct (match top.delimiter with
              | some d => openerChar d.kind
              | none => '(') .Alone ((a.close_delim top.idx none).alloc top.open_range none).1]
            ++ top.children) } from by simp]
      rw [stackText_children_append, ttListText_append, ttListText_single]
      cases htd : top.delimiter <;>
        simp [stackText, ttText, String.append_assoc, htd]
    · rw [(ih _ _).2]
      cases ps <;> rfl


/-- A non-trivia token's preserved text is its text. -/
theorem tokText_eq {t : SrcTok} (h : t.kind.is_trivia = false) : tokText t = t.text := by
  simp [tokText, h]

/-- A matched closer has the closing delimiter text and is not trivia. -/
theorem tokOk_closer {tok : SrcTok} (hok : TokTextOk tok) {k : DelimiterKind}
    (h : tok.kind = closerKind k) :
    tok.text = delim_to_str k true ∧ tok.kind.is_trivia = false := by
  obtain ⟨_, _, _, _, hrp, _, hrc, _, hrb, _⟩ := hok
  cases k with
  | Parenthesis => exact ⟨hrp (by simpa [closerKind] using h), by rw [h]; rfl⟩
  | Brace => exact ⟨hrc (by simpa [closerKind] using h), by rw [h]; rfl⟩
  | Bracket => exact ⟨hrb (by simpa [closerKind] using h), by rw [h]; rfl⟩

/-- An opener has the opening delimiter text and is not trivia. -/
theorem tokOk_opener {tok : SrcTok} (hok : TokTextOk tok) {k : DelimiterKind}
    (h : delimKindOf tok.kind = some k) :
    tok.text = delim_to_str k false ∧ tok.kind.is_trivia = false := by
  obtain ⟨_, _, _, hlp, _, hlc, _, hlb, _, _⟩ := hok
  cases hk : tok.kind <;> rw [hk] at h <;> simp [delimKindOf] at h
  · exact ⟨by rw [← h]; exact hlp hk, rfl⟩
  · exact ⟨by rw [← h]; exact hlc hk, rfl⟩
  · exact ⟨by rw [← h]; exact hlb hk, rfl⟩

/-- A punct kind is not trivia. -/
theorem punct_not_trivia {k : SyntaxKind} (h : k.is_punct = true) :
    k.is_trivia = false := by
  cases k <;> simp_all [SyntaxKind.is_punct, SyntaxKind.is_trivia]

/-- `lastEntry` only looks at children through the bottom entry. -/
theorem lastEntry_children (top : StackEntry) (ch : List TokenTree)
    (rest : List StackEntry) :
    (lastEntry { top with children := ch } rest).delimiter =
      (lastEntry top rest).delimiter := by
  cases rest <;> rfl


/-- Text of a punct–ident leaf pair (lifetime splitting). -/
theorem ttListText_pair (c : Char) (sp : Spacing) (i : Nat) (t : String) (j : Nat) :
    ttListText [TokenTree.punct c sp i, TokenTree.ident t j] =
      String.singleton c ++ t := by
  simp [ttListText, ttText, String.append_empty, String.append_assoc]

/-- One converter step extends the stack text by exactly the preserved
token text and keeps the bottom entry delimiter-free. -/
theorem step_text (tok : SrcTok) (peeked : Option SyntaxKind) (top : StackEntry)
    (rest : List StackEntry) (a : TokenIdAlloc)
    (hwf : (lastEntry top rest).delimiter = none)
    (hok : TokTextOk tok) :
    stackText (convert_step tok peeked top rest a).1
        (convert_step tok peeked top rest a).2.1 =
      stackText top rest ++ tokText tok ∧
    (lastEntry (convert_step tok peeked top rest a).1
        (convert_step tok peeked top rest a).2.1).delimiter = none := by
  obtain ⟨hc, he, hpunct, hlp, hrp, hlc, hrc, hlb, hrb, hlt⟩ := hok
  unfold convert_step
  dsimp only
  split
  next hcomment => exact absurd hcomment hc
  next hcomment =>
    split
    next hpk =>
      have hpk1 : tok.kind.is_punct = true := by
        simp only [Bool.and_eq_true, decide_eq_true_eq] at hpk
        exact hpk.1
      have htriv := punct_not_trivia hpk1
      split
      next hisclose =>
        split
        next p ps =>
          cases htd : top.delimiter with
          | none =>
            rw [htd] at hisclose
            simp at hisclose
          | some d =>
            rw [htd] at hisclose
            simp only [beq_iff_eq] at hisclose
            obtain ⟨htext, _⟩ :=
              tokOk_closer ⟨hc, he, hpunct, hlp, hrp, hlc, hrc, hlb, hrb, hlt⟩ hisclose
            constructor
            · dsimp only
              rw [stackText_children_append, ttListText_single, tokText_eq htriv]
              conv_rhs => rw [htext]
              simp [stackText, htd, ttText, singleton_openerChar, String.append_assoc]
            · dsimp only
              rw [lastEntry_cons] at hwf
              rw [lastEntry_children]
              exact hwf
        next =>
          have hnone : top.delimiter = none := hwf
          rw [hnone] at hisclose
          simp at hisclose
      next hisclose =>
        split
        next dk hdk =>
          obtain ⟨htext, _⟩ :=
            tokOk_opener ⟨hc, he, hpunct, hlp, hrp, hlc, hrc, hlb, hrb, hlt⟩ hdk
          constructor
          · dsimp only
            rw [tokText_eq htriv]
            conv_rhs => rw [htext]
            simp [stackText, ttListText, singleton_openerChar, String.append_empty]
          · dsimp only
            exact hwf
        next hdk =>
          constructor
          · dsimp only
            rw [stackText_children_append, ttListText_single, tokText_eq htriv]
            conv_rhs => rw [hpunct hpk1]
            rfl
          · dsimp only
            rw [lastEntry_children]
            exact hwf
    next hpk =>
      split
      next hkw =>
        have htriv : tok.kind.is_trivia = false := by
          simp only [Bool.or_eq_true, decide_eq_true_eq] at hkw
          rcases hkw with ((((h | h) | h) | h) | h)
          · rw [h]; rfl
          · rw [h]; rfl
          · rw [h]; rfl
          · rw [h]; rfl
          · cases hkk : tok.kind <;> (try rw [hkk] at h) <;>
              first
                | rfl
                | exact Bool.noConfusion h
        constructor
        · dsimp only
          rw [stackText_children_append, ttListText_single, tokText_eq htriv]
          rfl
        · dsimp only
          rw [lastEntry_children]
          exact hwf
      next hkw =>
        split
        next hlit2 =>
          have htriv : tok.kind.is_trivia = false := by
            cases hkk : tok.kind <;> (try rw [hkk] at hlit2) <;>
              first
                | rfl
                | exact Bool.noConfusion hlit2
          constructor
          · dsimp only
            rw [stackText_children_append, ttListText_single, tokText_eq htriv]
            rfl
          · dsimp only
            rw [lastEntry_children]
            exact hwf
        next hlit2 =>
          split
          next hlife =>
            have htriv : tok.kind.is_trivia = false := by rw [hlife]; rfl
            constructor
            · dsimp only
              rw [stackText_children_append, ttListText_pair, tokText_eq htriv]
              conv_rhs => rw [hlt hlife]
            · dsimp only
              rw [lastEntry_children]
              exact hwf
          next hlife =>
            have hw : tok.kind.is_trivia = true := by
              cases hkk : tok.kind <;> (try rfl) <;>
                rw [hkk] at hpk hkw hlit2 hlife hc he <;>
                first
                  | exact absurd rfl hc
                  | exact absurd rfl he
                  | exact absurd rfl hlife
                  | exact absurd (by rfl) hpk
                  | exact absurd (by rfl) hkw
                  | exact absurd (by rfl) hlit2
            have hzero : tokText tok = "" := by
              simp [tokText, hw]
            rw [hzero, String.append_empty]
            exact ⟨rfl, hwf⟩


/-- The converter loop renders the stack text followed by the preserved
stream text, and its bottom entry stays delimiter-free. -/
theorem go_text (toks : List SrcTok) (top : StackEntry) (rest : List StackEntry)
    (a : TokenIdAlloc) (hok : StreamTextOk toks)
    (hwf : (lastEntry top rest).delimiter = none) :
    ttListText (convert_go toks top rest a).1.children =
      stackText top rest ++ streamText toks ∧
    (convert_go toks top rest a).1.delimiter = none := by
  induction toks generalizing top rest a with
  | nil =>
    have hf := flush_text top rest a
    refine ⟨?_, ?_⟩
    · rw [show convert_go [] top rest a = convert_flush top rest a from rfl, hf.1]
      simp [streamText, String.join, String.append_empty]
    · rw [show convert_go [] top rest a = convert_flush top rest a from rfl, hf.2]
      exact hwf
  | cons tok toks ih =>
    rw [convert_go]
    have hs := step_text tok ((toks.head?).map (fun x => x.kind)) top rest a hwf
      (hok tok (List.mem_cons_self _ _))
    have ihh := ih (convert_step tok ((toks.head?).map (fun x => x.kind)) top rest a).1
      (convert_step tok ((toks.head?).map (fun x => x.kind)) top rest a).2.1
      (convert_step tok ((toks.head?).map (fun x => x.kind)) top rest a).2.2
      (fun t ht => hok t (List.mem_cons_of_mem _ ht)) hs.2
    refine ⟨?_, ihh.2⟩
    rw [ihh.1, hs.1, streamText_cons]
    simp [String.append_assoc]

/-- The converter preserves exactly the non-trivia text of the stream. -/
theorem convert_text_preserved (stream : List SrcTok) (a : TokenIdAlloc)
    (h : StreamTextOk stream) :
    ttText (convert_tokens stream a).1.toTT = streamText stream := by
  have hgo := go_text stream
    { delimiter := none, children := [], idx := 0, open_range := ⟨0, 0⟩ } [] a h rfl
  unfold convert_tokens
  dsimp only
  split
  next d ch heq =>
    have h1 := hgo.1
    rw [heq, ttListText_single] at h1
    simpa [Subtree.toTT, stackText, ttListText] using h1
  next heq =>
    have h1 := hgo.1
    have h2 := hgo.2
    simp only [Subtree.toTT, h2, ttText]
    rw [h1]
    simp [stackText, ttListText, String.append_empty]


/-- `String.join` of a singleton. -/
theorem join_single (s : String) : String.join [s] = s := rfl

/-- `itemsText` over a cons. -/
theorem itemsText_cons (x : BufItem) (l : List BufItem) :
    itemsText (x :: l) = itemText x ++ itemsText l := by
  simp [itemsText, join_cons]

/-- `itemsText` over an append. -/
theorem itemsText_append (a b : List BufItem) :
    itemsText (a ++ b) = itemsText a ++ itemsText b := by
  induction a with
  | nil => rfl
  | cons x xs ih => simp [itemsText_cons, ih, String.append_assoc, List.cons_append]

mutual

/-- Flattening a token tree into buffer items preserves its text. -/
theorem itemsText_flattenTT : ∀ (t : TokenTree), itemsText (flattenTT t) = ttText t
  | .ident t i => rfl
  | .literal t i => rfl
  | .punct c sp i => rfl
  | .subtree d ch => by
    rw [flattenTT]
    rw [itemsText_append, itemsText_cons, itemsText_flattenList ch]
    cases d with
    | none =>
      simp [itemText, ttText, itemsText_cons, itemsText, join_single, String.append_empty]
    | some dl =>
      simp [itemText, ttText, itemsText_cons, itemsText, join_single, String.append_empty,
        String.append_assoc]

/-- Flattening a token-tree list preserves its text. -/
theorem itemsText_flattenList : ∀ (ts : List TokenTree),
    itemsText (flattenList ts) = ttListText ts
  | [] => rfl
  | t :: ts => by
    rw [flattenList, itemsText_append, itemsText_flattenTT t, itemsText_flattenList ts,
      ttListText]

end

/-- The buffer of a subtree renders the subtree's text. -/
theorem itemsText_bufferOf (tt : Subtree) :
    itemsText (bufferOf tt) = ttText tt.toTT := by
  cases htt : tt.delimiter with
  | none =>
    unfold bufferOf
    rw [htt]
    rw [itemsText_flattenList]
    simp [Subtree.toTT, ttText, htt]
  | some dl =>
    unfold bufferOf
    rw [htt]
    exact itemsText_flattenTT tt.toTT

/-- The preserved text of the raw stream is the lexed source with trivia
removed. -/
theorem streamText_lexedStream (toks : List (SyntaxKind × String)) :
    ∀ off, streamText (lexedStream toks off) =
      String.join (toks.map (fun p => if p.1.is_trivia then "" else p.2)) := by
  induction toks with
  | nil =>
    intro off
    rfl
  | cons p ps ih =>
    intro off
    obtain ⟨k, t⟩ := p
    rw [lexedStream, streamText_cons, ih _, List.map_cons, join_cons]
    rfl


/-- The empty string is a left identity for append. -/
theorem empty_append (s : String) : "" ++ s = s := rfl

/-- `String.join` over a map of a snoc: the last element's text is
appended. -/
theorem join_map_append_single {α : Type} (f : α → String) (l : List α) (x : α) :
    String.join ((l ++ [x]).map f) = String.join (l.map f) ++ f x := by
  induction l with
  | nil => rfl
  | cons y ys ih =>
    rw [List.cons_append, List.map_cons, join_cons, ih, List.map_cons, join_cons,
      String.append_assoc]

/-- `Cursor::token_tree` returning a leaf means the buffer holds that
leaf at the cursor. -/
theorem tokenTreeAt_some_leaf (items : List BufItem) (i : Nat) (l : TokenTree)
    (h : tokenTreeAt items i = some (TTRef.leafRef l)) :
    items.get? i = some (BufItem.leaf l) := by
  unfold tokenTreeAt at h
  cases hg : items.get? i with
  | none => rw [hg] at h; exact Option.noConfusion h
  | some it =>
    cases it with
    | leaf l2 =>
      rw [hg] at h
      have h1 := Option.some.inj h
      injection h1 with h2
      rw [h2]
    | openSub d =>
      rw [hg] at h
      exact TTRef.noConfusion (Option.some.inj h)
    | closeSub d =>
      rw [hg] at h
      exact Option.noConfusion h

/-- `Cursor::bump` past a leaf moves one slot. -/
theorem bumpAt_leaf (items : List BufItem) (i : Nat) (l : TokenTree)
    (h : items.get? i = some (BufItem.leaf l)) : bumpAt items i = i + 1 := by
  unfold bumpAt
  rw [h]

/-- What a positive whitespace-insertion test says about the buffer: an
`Alone` punct other than `;` sits at `last`, and a punct leaf sits right
past its bump. -/
theorem adjacentPunctSpace_eq_true (items : List BufItem) (last : Nat)
    (h : adjacentPunctSpace items last = true) :
    ∃ c i, items.get? last = some (BufItem.leaf (TokenTree.punct c Spacing.Alone i)) ∧
      c ≠ ';' ∧
      ∃ c2 sp2 i2, items.get? (bumpAt items last) =
        some (BufItem.leaf (TokenTree.punct c2 sp2 i2)) := by
  unfold adjacentPunctSpace at h
  split at h
  · rename_i c sp i c2 sp2 i2 heq1 heq2
    rw [Bool.and_eq_true, beq_iff_eq, bne_iff_ne] at h
    obtain ⟨hsp, hc⟩ := h
    subst hsp
    exact ⟨c, i, tokenTreeAt_some_leaf items last _ heq1, hc,
      c2, sp2, i2, tokenTreeAt_some_leaf items (bumpAt items last) _ heq2⟩
  · exact Bool.noConfusion h

/-- One `sinkPull` on a leaf at the cursor consumes exactly that leaf. -/
theorem sinkPull_leaf (items : List BufItem) (fuel : Nat) (st : SinkState) (l : TokenTree)
    (h : items.get? st.cursor = some (BufItem.leaf l)) :
    (sinkPull items (fuel + 1) st).1.cursor = st.cursor + 1 ∧
    (sinkPull items (fuel + 1) st).2 = ttText l := by
  unfold sinkPull
  rw [h]
  exact ⟨rfl, rfl⟩

/-- `sinkPull` keeps the buffer and the builder output, and either
consumes nothing (out of fuel or at end of buffer) or extends the spaced
rendering by the text it returns. -/
theorem sinkPull_spec (items : List BufItem) :
    ∀ (fuel : Nat) (st : SinkState) (b : Bool) (s : String),
    SinkSpaced items st.cursor b s →
    (sinkPull items fuel st).1.items = st.items ∧
    (sinkPull items fuel st).1.out = st.out ∧
    (((sinkPull items fuel st).1.cursor = st.cursor ∧ (sinkPull items fuel st).2 = "" ∧
        (fuel = 0 ∨ items.get? st.cursor = none)) ∨
      SinkSpaced items (sinkPull items fuel st).1.cursor false
        (s ++ (sinkPull items fuel st).2)) := by
  intro fuel
  induction fuel with
  | zero =>
    intro st b s hs
    exact ⟨rfl, rfl, Or.inl ⟨rfl, rfl, Or.inl rfl⟩⟩
  | succ fuel ih =>
    intro st b s hs
    cases hget : items.get? st.cursor with
    | none =>
      unfold sinkPull
      rw [hget]
      exact ⟨rfl, rfl, Or.inl ⟨rfl, rfl, Or.inr rfl⟩⟩
    | some it =>
      cases it with
      | leaf l =>
        unfold sinkPull
        rw [hget]
        exact ⟨rfl, rfl, Or.inr (SinkSpaced.item st.cursor b s _ hget hs)⟩
      | openSub d =>
        cases d with
        | some dl =>
          unfold sinkPull
          rw [hget]
          exact ⟨rfl, rfl, Or.inr (SinkSpaced.item st.cursor b s _ hget hs)⟩
        | none =>
          have hs2 : SinkSpaced items (st.cursor + 1) false (s ++ "") :=
            SinkSpaced.item st.cursor b s _ hget hs
          have h := ih { st with cursor := st.cursor + 1 } false (s ++ "") hs2
          unfold sinkPull
          rw [hget]
          refine ⟨h.1, h.2.1, ?_⟩
          rcases h.2.2 with ⟨hcu, ht, _⟩ | h2
          · refine Or.inr ?_
            rw [ht, hcu]
            exact hs2
          · rw [String.append_empty] at h2
            exact Or.inr h2
      | closeSub d =>
        cases d with
        | some dl =>
          unfold sinkPull
          rw [hget]
          dsimp only
          cases hf : st.open_delims.find? (fun p => p.1 == dl.id) with
          | none =>
            exact ⟨rfl, rfl, Or.inr (SinkSpaced.item st.cursor b s _ hget hs)⟩
          | some p =>
            exact ⟨rfl, rfl, Or.inr (SinkSpaced.item st.cursor b s _ hget hs)⟩
        | none =>
          have hs2 : SinkSpaced items (st.cursor + 1) false (s ++ "") :=
            SinkSpaced.item st.cursor b s _ hget hs
          have h := ih { st with cursor := st.cursor + 1 } false (s ++ "") hs2
          unfold sinkPull
          rw [hget]
          refine ⟨h.1, h.2.1, ?_⟩
          rcases h.2.2 with ⟨hcu, ht, _⟩ | h2
          · refine Or.inr ?_
            rw [ht, hcu]
            exact hs2
          · rw [String.append_empty] at h2
            exact Or.inr h2


/-- The `TtTreeSink::token` pulling loop: it keeps the buffer and the
builder output, appends the pulled text to `buf`, and either leaves the
snapshot untouched without consuming anything (out of iterations or past
the buffer end), or ends with a snapshot such that a leaf at the snapshot
was consumed as the very last pull, with the spaced rendering extended
accordingly. -/
theorem sinkTokenLoop_spec (items : List BufItem) :
    ∀ (n : Nat) (st : SinkState) (buf : String) (last : Nat) (b : Bool) (s : String),
    st.items = items →
    SinkSpaced items st.cursor b s →
    (sinkTokenLoop n st buf last).1.items = items ∧
    (sinkTokenLoop n st buf last).1.out = st.out ∧
    ∃ t, (sinkTokenLoop n st buf last).2.1 = buf ++ t ∧
      (((sinkTokenLoop n st buf last).2.2 = last ∧
        (sinkTokenLoop n st buf last).1.cursor = st.cursor ∧ t = "" ∧
        (n = 0 ∨ items.length ≤ st.cursor) ∧
        SinkSpaced items (sinkTokenLoop n st buf last).1.cursor b (s ++ t)) ∨
      ((∀ l, items.get? (sinkTokenLoop n st buf last).2.2 = some (BufItem.leaf l) →
          (sinkTokenLoop n st buf last).1.cursor = (sinkTokenLoop n st buf last).2.2 + 1 ∧
          SinkSpaced items (sinkTokenLoop n st buf last).1.cursor false (s ++ t)) ∧
        ∃ b2, SinkSpaced items (sinkTokenLoop n st buf last).1.cursor b2 (s ++ t))) := by
  intro n
  induction n with
  | zero =>
    intro st buf last b s hst hs
    refine ⟨hst, rfl, "", (String.append_empty buf).symm,
      Or.inl ⟨rfl, rfl, rfl, Or.inl rfl, ?_⟩⟩
    rw [String.append_empty]
    exact hs
  | succ n ih =>
    intro st buf last b s hst hs
    unfold sinkTokenLoop
    rw [hst]
    by_cases hcur : items.length ≤ st.cursor
    · rw [if_pos hcur]
      refine ⟨hst, rfl, "", (String.append_empty buf).symm,
        Or.inl ⟨rfl, rfl, rfl, Or.inr hcur, ?_⟩⟩
      rw [String.append_empty]
      exact hs
    · rw [if_neg hcur]
      have hp := sinkPull_spec items (items.length + 1) st b s hs
      obtain ⟨hpi, hpo, hpd⟩ := hp
      have hpr : SinkSpaced items (sinkPull items (items.length + 1) st).1.cursor false
          (s ++ (sinkPull items (items.length + 1) st).2) := by
        rcases hpd with ⟨hcu, ht, hf⟩ | h2
        · rcases hf with hf | hf
          · exact absurd hf (Nat.succ_ne_zero _)
          · exact absurd (List.get?_eq_none.mp hf) hcur
        · exact h2
      have hrec := ih
        { (sinkPull items (items.length + 1) st).1 with
          text_pos := (sinkPull items (items.length + 1) st).1.text_pos +
            (sinkPull items (items.length + 1) st).2.utf8ByteSize }
        (buf ++ (sinkPull items (items.length + 1) st).2) st.cursor false
        (s ++ (sinkPull items (items.length + 1) st).2) (hpi.trans hst) hpr
      obtain ⟨hri, hro, t2, hrt, hrd⟩ := hrec
      refine ⟨hri, hro.trans hpo, (sinkPull items (items.length + 1) st).2 ++ t2, ?_, Or.inr ?_⟩
      · rw [hrt, String.append_assoc]
      · rcases hrd with ⟨hrl, hrc, ht2, _, _⟩ | ⟨hleaf, b2, hsp⟩
        · constructor
          · intro l hl
            rw [hrl] at hl
            have hpl := sinkPull_leaf items items.length st l hl
            constructor
            · rw [hrc, hrl]
              exact hpl.1
            · rw [hrc, ht2, String.append_empty]
              exact hpr
          · refine ⟨false, ?_⟩
            rw [hrc, ht2, String.append_empty]
            exact hpr
        · constructor
          · intro l hl
            obtain ⟨h1, h2⟩ := hleaf l hl
            refine ⟨h1, ?_⟩
            rw [← String.append_assoc]
            exact h2
          · refine ⟨b2, ?_⟩
            rw [← String.append_assoc]
            exact hsp


/-- `TtTreeSink::token` keeps the buffer and preserves the sink invariant
whenever it covers at least one token: the builder text stays a spaced
rendering of the consumed buffer prefix, alone-punct spaces included. -/
theorem sinkToken_spaced (st : SinkState) (kind : SyntaxKind) (n : Nat)
    (hn : 1 ≤ n) (h : SinkInv st) :
    (sinkToken st kind n).items = st.items ∧ SinkInv (sinkToken st kind n) := by
  obtain ⟨b, hb⟩ := h
  have hne : 1 ≤ (if kind = SyntaxKind.LIFETIME_IDENT then 2 else n) := by
    split
    · exact Nat.one_le_iff_ne_zero.mpr (Nat.succ_ne_zero 1)
    · exact hn
  have houtText : ∀ (k2 : SyntaxKind) (s2 : String) (st2 : SinkState),
      sinkText { st2 with out := st2.out ++ [(k2, s2)] } = sinkText st2 ++ s2 := by
    intro k2 s2 st2
    unfold sinkText
    dsimp only
    rw [join_map_append_single]
  unfold sinkToken
  dsimp only
  generalize hm : (if kind = SyntaxKind.LIFETIME_IDENT then 2 else n) = m at hne ⊢
  have hloop := sinkTokenLoop_spec st.items m st "" st.cursor b (sinkText st) rfl hb
  obtain ⟨hli, hlo, t, hlt, hld⟩ := hloop
  have hstring : sinkText
      { (sinkTokenLoop m st "" st.cursor).1 with
        out := (sinkTokenLoop m st "" st.cursor).1.out ++
          [(kind, (sinkTokenLoop m st "" st.cursor).2.1)] } = sinkText st ++ t := by
    rw [houtText]
    have hout2 : sinkText (sinkTokenLoop m st "" st.cursor).1 = sinkText st := by
      unfold sinkText
      rw [hlo]
    rw [hout2, hlt, empty_append]
  split
  · rename_i hsp
    rw [hli] at hsp
    obtain ⟨c, i, hlc, hcne, c2, sp2, i2, hb2⟩ :=
      adjacentPunctSpace_eq_true st.items _ hsp
    rcases hld with ⟨hrl, hrc, ht, hzero, _⟩ | ⟨hleaf, _⟩
    · rcases hzero with hz | hz
      · exact absurd hz (Nat.pos_iff_ne_zero.mp hne)
      · rw [hrl] at hlc
        obtain ⟨hlt2, _⟩ := List.get?_eq_some.mp hlc
        exact absurd hz (Nat.not_le.mpr hlt2)
    · obtain ⟨hc1, hs1⟩ := hleaf _ hlc
      constructor
      · rw [hli]
      · refine ⟨true, ?_⟩
        have hbump : bumpAt st.items (sinkTokenLoop m st "" st.cursor).2.2 =
            (sinkTokenLoop m st "" st.cursor).2.2 + 1 :=
          bumpAt_leaf st.items _ _ hlc
        rw [hbump] at hb2
        have hspaced : SinkSpaced st.items
            ((sinkTokenLoop m st "" st.cursor).2.2 + 1) true ((sinkText st ++ t) ++ " ") := by
          refine SinkSpaced.space _ _ c i (TokenTree.punct c2 sp2 i2) ?_
            (Nat.le_add_left 1 _) hcne hb2 ⟨c2, sp2, i2, rfl⟩ ?_
          · rw [Nat.add_sub_cancel]
            exact hlc
          · rw [← hc1]
            exact hs1
        rw [← hc1] at hspaced
        have hfinal : sinkText
            { { (sinkTokenLoop m st "" st.cursor).1 with
                out := (sinkTokenLoop m st "" st.cursor).1.out ++
                  [(kind, (sinkTokenLoop m st "" st.cursor).2.1)] } with
              out := ((sinkTokenLoop m st "" st.cursor).1.out ++
                  [(kind, (sinkTokenLoop m st "" st.cursor).2.1)]) ++
                [(SyntaxKind.WHITESPACE, " ")] } = (sinkText st ++ t) ++ " " := by
          rw [houtText, hstring]
        rw [← hfinal] at hspaced
        rw [hli]
        exact hspaced
  · rename_i hsp
    constructor
    · rw [hli]
    · rcases hld with ⟨_, _, _, _, hsp2⟩ | ⟨_, b2, hsp2⟩
      · refine ⟨b, ?_⟩
        rw [hstring, hli]
        exact hsp2
      · refine ⟨b2, ?_⟩
        rw [hstring, hli]
        exact hsp2


/-- One well-formed parser event keeps the buffer and the sink
invariant. -/
theorem sinkStep_inv (st : SinkState) (e : Step) (he : stepTokOk e) (h : SinkInv st) :
    (sinkStep st e).items = st.items ∧ SinkInv (sinkStep st e) := by
  cases e with
  | token kind n => exact sinkToken_spaced st kind n he h
  | enter k => exact ⟨rfl, h⟩
  | exit => exact ⟨rfl, h⟩
  | error m => exact ⟨rfl, h⟩

/-- Replaying any well-formed event stream keeps the buffer and the sink
invariant. -/
theorem replay_inv (events : List Step) :
    ∀ st, StepsOk events → SinkInv st →
    (events.foldl sinkStep st).items = st.items ∧ SinkInv (events.foldl sinkStep st) := by
  induction events with
  | nil =>
    intro st _ h
    exact ⟨rfl, h⟩
  | cons e es ih =>
    intro st hok h
    have h1 := sinkStep_inv st e (hok e (List.mem_cons_self e es)) h
    have h2 := ih (sinkStep st e) (fun x hx => hok x (List.mem_cons_of_mem e hx)) h1.2
    exact ⟨h2.1.trans h1.1, h2.2⟩

/-- `token_tree_to_syntax_node` keeps the linearised buffer of its input
tree, and its builder text is a spaced rendering of the consumed buffer
prefix. -/
theorem token_tree_to_syntax_node_inv (tt : Subtree) (events : List Step)
    (hok : StepsOk events) :
    (token_tree_to_syntax_node tt events).items = bufferOf tt ∧
    SinkInv (token_tree_to_syntax_node tt events) := by
  unfold token_tree_to_syntax_node
  dsimp only
  exact replay_inv events _ hok ⟨false, SinkSpaced.zero⟩

/-- With no lexer errors, the raw entry point's subtree is the shared
converter's output on the raw stream. -/
theorem ttOf_no_errors (lexed : LexedStr) (h : lexed.errors = []) :
    ttOf lexed = (convert_tokens (lexedStream lexed.tokens 0)
      { map := TokenMap.empty, global_offset := 0, next_id := 0 }).1 := by
  unfold ttOf parse_to_token_tree
  rw [h]
  rfl


/-- C1 (counterexample): replaying `a + b` through the bridge yields
`a+b` — the round-trip text differs from the source and is strictly
shorter, so no insertion of single spaces between colliding `Alone`
puncts can account for the difference; the round trip does not return
the source text. -/
theorem C1_counterexample :
    sourceText lexedPlus = "a + b" ∧
    sinkText (token_tree_to_syntax_node (ttOf lexedPlus) eventsPlus) = "a+b" ∧
    sinkText (token_tree_to_syntax_node (ttOf lexedPlus) eventsPlus) ≠ sourceText lexedPlus ∧
    (sinkText (token_tree_to_syntax_node (ttOf lexedPlus) eventsPlus)).length <
      (sourceText lexedPlus).length := by
  refine ⟨rfl, rfl, ?_, ?_⟩
  · intro hc
    rw [show sinkText (token_tree_to_syntax_node (ttOf lexedPlus) eventsPlus) = "a+b" from rfl,
      show sourceText lexedPlus = "a + b" from rfl] at hc
    exact absurd hc (by decide)
  · rw [show sinkText (token_tree_to_syntax_node (ttOf lexedPlus) eventsPlus) = "a+b" from rfl,
      show sourceText lexedPlus = "a + b" from rfl]
    decide

/-- Re-idding the fabricated doc literal does not change a tree's
text. -/
theorem ttText_patchDocLit (id : Nat) (t : TokenTree) :
    ttText (patchDocLit id t) = ttText t := by
  cases t with
  | ident s i => rfl
  | literal s i => rfl
  | punct c sp i => rfl
  | subtree d ch =>
    have hmod : ∀ (l : List TokenTree) (n : Nat),
        ttListText (List.modify (fun t =>
          match t with
          | TokenTree.literal s _ => TokenTree.literal s id
          | other => other) n l) = ttListText l := by
      intro l
      induction l with
      | nil =>
        intro n
        rw [List.modify_nil]
      | cons x xs ih =>
        intro n
        cases n with
        | zero =>
          rw [List.modify_zero_cons]
          cases x <;> rfl
        | succ n =>
          rw [List.modify_succ_cons]
          simp only [ttListText]
          rw [ih n]
    unfold patchDocLit
    simp only [ttText]
    rw [hmod]

/-- Patching the literal id across a fabricated token list keeps its
text. -/
theorem ttListText_map_patchDocLit (id : Nat) (ts : List TokenTree) :
    ttListText (ts.map (patchDocLit id)) = ttListText ts := by
  induction ts with
  | nil => rfl
  | cons t ts ih =>
    rw [List.map_cons]
    simp only [ttListText]
    rw [ttText_patchDocLit, ih]

/-- `streamEmitted` over a cons. -/
theorem streamEmitted_cons (t : SrcTok) (ts : List SrcTok) :
    streamEmitted (t :: ts) = tokEmitted t ++ streamEmitted ts := by
  simp [streamEmitted, join_cons]

/-- One converter step, comments allowed: the stack text extends by the
token's emitted text (its doc desugaring for comments), and the bottom
entry stays delimiter-free. -/
theorem step_text_c (tok : SrcTok) (peeked : Option SyntaxKind) (top : StackEntry)
    (rest : List StackEntry) (a : TokenIdAlloc)
    (hwf : (lastEntry top rest).delimiter = none)
    (hok : TokTextOkC tok) :
    stackText (convert_step tok peeked top rest a).1
        (convert_step tok peeked top rest a).2.1 =
      stackText top rest ++ tokEmitted tok ∧
    (lastEntry (convert_step tok peeked top rest a).1
        (convert_step tok peeked top rest a).2.1).delimiter = none := by
  by_cases hcm : tok.kind = SyntaxKind.COMMENT
  · unfold convert_step tokEmitted
    rw [if_pos hcm]
    cases hdc : (if tok.synthetic.isNone then convert_doc_comment_text tok.text else none) with
    | none =>
      dsimp only
      constructor
      · rw [if_pos hcm, String.append_empty]
      · exact hwf
    | some tokens =>
      dsimp only
      constructor
      · rw [stackText_children_append, ttListText_map_patchDocLit, if_pos hcm]
      · rw [lastEntry_children]
        exact hwf
  · obtain ⟨he, h3, h4, h5, h6, h7, h8, h9, h10⟩ := hok
    have h := step_text tok peeked top rest a hwf ⟨hcm, he, h3, h4, h5, h6, h7, h8, h9, h10⟩
    have hemit : tokEmitted tok = tokText tok := by
      unfold tokEmitted
      rw [if_neg hcm]
    rw [hemit]
    exact h

/-- The converter loop, comments allowed: the result renders the stack
text followed by the stream's emitted text. -/
theorem go_text_c (toks : List SrcTok) (top : StackEntry) (rest : List StackEntry)
    (a : TokenIdAlloc) (hok : StreamTextOkC toks)
    (hwf : (lastEntry top rest).delimiter = none) :
    ttListText (convert_go toks top rest a).1.children =
      stackText top rest ++ streamEmitted toks ∧
    (convert_go toks top rest a).1.delimiter = none := by
  induction toks generalizing top rest a with
  | nil =>
    have hf := flush_text top rest a
    refine ⟨?_, ?_⟩
    · rw [show convert_go [] top rest a = convert_flush top rest a from rfl, hf.1]
      simp [streamEmitted, String.join, String.append_empty]
    · rw [show convert_go [] top rest a = convert_flush top rest a from rfl, hf.2]
      exact hwf
  | cons tok toks ih =>
    rw [convert_go]
    have hs := step_text_c tok ((toks.head?).map (fun x => x.kind)) top rest a hwf
      (hok tok (List.mem_cons_self _ _))
    have ihh := ih (convert_step tok ((toks.head?).map (fun x => x.kind)) top rest a).1
      (convert_step tok ((toks.head?).map (fun x => x.kind)) top rest a).2.1
      (convert_step tok ((toks.head?).map (fun x => x.kind)) top rest a).2.2
      (fun t ht => hok t (List.mem_cons_of_mem _ ht)) hs.2
    refine ⟨?_, ihh.2⟩
    rw [ihh.1, hs.1, streamEmitted_cons]
    simp [String.append_assoc]

/-- The converter preserves exactly the emitted text of the stream:
non-comment token texts with trivia removed, comments replaced by their
doc desugaring (nothing for non-doc comments). -/
theorem convert_text_preserved_c (stream : List SrcTok) (a : TokenIdAlloc)
    (h : StreamTextOkC stream) :
    ttText (convert_tokens stream a).1.toTT = streamEmitted stream := by
  have hgo := go_text_c stream
    { delimiter := none, children := [], idx := 0, open_range := ⟨0, 0⟩ } [] a h rfl
  unfold convert_tokens
  dsimp only
  split
  next d ch heq =>
    have h1 := hgo.1
    rw [heq, ttListText_single] at h1
    simpa [Subtree.toTT, stackText, ttListText] using h1
  next heq =>
    have h1 := hgo.1
    have h2 := hgo.2
    simp only [Subtree.toTT, h2, ttText]
    rw [h1]
    simp [stackText, ttListText, String.append_empty]

/-- The emitted text of the raw stream is the lexed source with
whitespace removed and comments desugared. -/
theorem streamEmitted_lexedStream (toks : List (SyntaxKind × String)) :
    ∀ off, streamEmitted (lexedStream toks off) =
      String.join (toks.map (fun p =>
        if p.1 = SyntaxKind.COMMENT then
          match convert_doc_comment_text p.2 with
          | none => ""
          | some tokens => ttListText tokens
        else if p.1.is_trivia then "" else p.2)) := by
  induction toks with
  | nil =>
    intro off
    rfl
  | cons p ps ih =>
    intro off
    obtain ⟨k, t⟩ := p
    rw [lexedStream, streamEmitted_cons, ih _, List.map_cons, join_cons]
    rfl

/-- C1 (amended): for a source the lexer accepts without errors (its
tokens well-formed as the real lexer guarantees, comments allowed),
converting to a token tree and replaying any well-formed event stream
through `token_tree_to_syntax_node` produces builder text that is a
spaced rendering of the consumed prefix of the linearised token buffer —
the buffer items' texts in order, with single spaces optionally inserted
between an `Alone` punct other than `;` and a following punct — and the
whole buffer's text is exactly the source text with whitespace removed,
non-doc comments removed, and each doc comment replaced by the text of
its fabricated `# [doc = "..."]` sequence. -/
theorem C1_amended_round_trip (lexed : LexedStr) (events : List Step)
    (herr : lexed.errors = [])
    (hok : StreamTextOkC (lexedStream lexed.tokens 0))
    (hev : StepsOk events) :
    itemsText (bufferOf (ttOf lexed)) = stripTriviaDesugar lexed ∧
    ∃ b, SinkSpaced (bufferOf (ttOf lexed))
      (token_tree_to_syntax_node (ttOf lexed) events).cursor b
      (sinkText (token_tree_to_syntax_node (ttOf lexed) events)) := by
  constructor
  · rw [itemsText_bufferOf, ttOf_no_errors lexed herr, convert_text_preserved_c _ _ hok,
      streamEmitted_lexedStream lexed.tokens 0]
    rfl
  · obtain ⟨hi, b, hs⟩ := token_tree_to_syntax_node_inv (ttOf lexed) events hev
    exact ⟨b, hi ▸ hs⟩

/-- C1 witness: the amended round trip on a doc comment followed by an
identifier, with a concrete event stream. -/
theorem C1_witness :
    lexedDocA.errors = [] ∧ StreamTextOkC (lexedStream lexedDocA.tokens 0) ∧
    StepsOk eventsDocA ∧
    (itemsText (bufferOf (ttOf lexedDocA)) = stripTriviaDesugar lexedDocA ∧
      ∃ b, SinkSpaced (bufferOf (ttOf lexedDocA))
        (token_tree_to_syntax_node (ttOf lexedDocA) eventsDocA).cursor b
        (sinkText (token_tree_to_syntax_node (ttOf lexedDocA) eventsDocA))) := by
  have hok : StreamTextOkC (lexedStream lexedDocA.tokens 0) := by
    unfold StreamTextOkC TokTextOkC
    decide
  have hev : StepsOk eventsDocA := by
    intro e he
    fin_cases he <;> first | exact Nat.le_refl 1 | exact trivial
  exact ⟨rfl, hok, hev, C1_amended_round_trip lexedDocA eventsDocA rfl hok hev⟩

end SyntaxBridge
